import Mathlib

/-!
Verification of `update_catalog.py` (BLS-Architect/psi_webstore).

The script reads the full text of `catalog.html`, applies a fixed ordered
sequence of guarded string substitutions (Python `str.replace`, which
replaces every non-overlapping occurrence left to right), and ends.  Text
is modelled as `List Char`; every substitution and guard of the script is
embedded below, together with the string literals of the source.
-/

namespace PsiWebstore

set_option maxRecDepth 100000

/-- Document text, as in the source: a Python `str`, modelled as a list of
characters. -/
abbrev Text := List Char

/-- Literal from the source script. -/
def original_block : Text := "        .product-image \x7b\n            background: var(--bg-light);\n            padding: 20px;\n            display: flex;\n            justify-content: center;\n            align-items: center;\n            height: 220px;\n        \x7d".toList

/-- Literal from the source script. -/
def updated_block : Text := "        .product-image \x7b\n            background: var(--bg-light);\n            padding: 20px;\n            display: flex;\n            justify-content: center;\n            align-items: center;\n            height: 220px;\n            position: relative;\n            overflow: hidden;\n        \x7d".toList

/-- Literal from the source script. -/
def img_block : Text := "        .product-image img \x7b\n            max-width: 100%;\n            max-height: 100%;\n            object-fit: contain;\n        \x7d".toList

/-- Literal from the source script. -/
def img_updated : Text := "        .product-image img \x7b\n            max-width: 100%;\n            max-height: 100%;\n            object-fit: contain;\n            transition: opacity 0.3s ease;\n        \x7d".toList

/-- Literal from the source script. -/
def carousel_css : Text := "\n        .product-image.carousel .carousel-nav \x7b\n            position: absolute;\n            top: 50%;\n            transform: translateY(-50%);\n            background: rgba(35, 31, 32, 0.65);\n            color: var(--white);\n            border: none;\n            width: 32px;\n            height: 32px;\n            border-radius: 50%;\n            display: flex;\n            align-items: center;\n            justify-content: center;\n            cursor: pointer;\n            opacity: 0;\n            transition: opacity 0.2s ease;\n        \x7d\n\n        .product-image.carousel:hover .carousel-nav \x7b\n            opacity: 1;\n        \x7d\n\n        .product-image.carousel .carousel-nav.prev \x7b\n            left: 12px;\n        \x7d\n\n        .product-image.carousel .carousel-nav.next \x7b\n            right: 12px;\n        \x7d\n\n        .product-image.carousel .carousel-indicators \x7b\n            position: absolute;\n            bottom: 12px;\n            left: 50%;\n            transform: translateX(-50%);\n            display: flex;\n            gap: 6px;\n        \x7d\n\n        .product-image.carousel .carousel-indicators span \x7b\n            width: 8px;\n            height: 8px;\n            border-radius: 50%;\n            background: rgba(255, 255, 255, 0.35);\n            transition: background 0.2s ease;\n        \x7d\n\n        .product-image.carousel .carousel-indicators span.active \x7b\n            background: var(--psi-red);\n        \x7d\n\n        @media (hover: none) \x7b\n            .product-image.carousel .carousel-nav \x7b\n                opacity: 1;\n            \x7d\n        \x7d\n".toList

/-- Literal from the source script. -/
def insert_point : Text := "        const filterElements = \x7b\n            publisher: null,\n            category: null,\n            priceBand: null,\n            sort: null,\n            clear: null,\n            count: null\n        \x7d;\n\n        let filtersBound = false;\n".toList

/-- Literal from the source script. -/
def cache_marker : Text := "        function cacheFilterElements() \x7b\n            if (filterElements.publisher) return;\n            filterElements.publisher = document.getElementById(\x27filterPublisher\x27);\n            filterElements.category = document.getElementById(\x27filterCategory\x27);\n            filterElements.priceBand = document.getElementById(\x27filterPriceBand\x27);\n            filterElements.sort = document.getElementById(\x27sortProducts\x27);\n            filterElements.clear = document.getElementById(\x27clearFiltersButton\x27);\n            filterElements.count = document.getElementById(\x27productsCount\x27);\n        \x7d\n\n".toList

/-- Literal from the source script. -/
def primary_marker : Text := "        function productPrimaryImage(product) \x7b\n            if (product.primaryImage) return product.primaryImage;\n            if (product.images && product.images.main) return product.images.main;\n            if (product.images && product.images.front) return product.images.front;\n            return \x27psi.svg\x27;\n        \x7d\n\n".toList

/-- Literal from the source script. -/
def get_images_fn : Text := "        function getProductImages(product) \x7b\n            const sources = [\n                product.primaryImage,\n                product.images && product.images.main,\n                product.images && product.images.front,\n                product.images && product.images.angle,\n                product.images && product.images.pack\n            ];\n            const unique = [];\n            const seen = new Set();\n            sources.forEach(source => \x7b\n                const sanitized = sanitizeImageUrl(source);\n                if (sanitized && !seen.has(sanitized)) \x7b\n                    seen.add(sanitized);\n                    unique.append(sanitized);\n                \x7d\n            \x7d);\n            if (!unique):\n                pass\n        \x7d\n".toList

/-- Literal from the source script. -/
def carousel_timers_decl : Text := "\n        const carouselTimers = new Map();\n\n".toList

/-- Literal from the source script. -/
def clear_timers_fn : Text := "        function clearCarouselTimers() \x7b\n            carouselTimers.forEach(id => clearInterval(id));\n            carouselTimers.clear();\n        \x7d\n\n".toList

/-- Literal from the source script. -/
def ct_guard : Text := "const carouselTimers".toList

/-- Literal from the source script. -/
def cct_guard : Text := "function clearCarouselTimers".toList

/-- Literal from the source script. -/
def gpi_guard : Text := "function getProductImages".toList

/-- Literal from the source script: `marker = img_updated + "\n"`. -/
def marker : Text := img_updated ++ "\n".toList

/-- Boolean prefix test on character lists (the basis of substring search). -/
def isPfx : Text → Text → Bool
  | [], _ => true
  | _ :: _, [] => false
  | a :: x, b :: y => a == b && isPfx x y

/-- Boolean substring test: Python's `pat in s`. -/
def isSub (p : Text) : Text → Bool
  | [] => isPfx p []
  | c :: t => isPfx p (c :: t) || isSub p t

/-- One pass of Python `str.replace(pat, rep)` over the text, with explicit
fuel so that the recursion is structural (the fuel is the length of the
text; each step consumes at least one character).  For a nonempty pattern
this replaces every non-overlapping occurrence left to right, exactly as
Python does; for the empty pattern it inserts `rep` before every character
and at the end, also as Python does. -/
def rAux (pat rep : Text) : Nat → Text → Text
  | _, [] => if pat.isEmpty then rep else []
  | 0, s => s
  | n + 1, c :: t =>
    if pat.isEmpty then rep ++ c :: rAux pat rep n t
    else if isPfx pat (c :: t) then rep ++ rAux pat rep n ((c :: t).drop pat.length)
    else c :: rAux pat rep n t

/-- Python `s.replace(pat, rep)`. -/
def replaceAll (pat rep s : Text) : Text := rAux pat rep s.length s

/-- Line 9-10 of the source: the guarded `.product-image` container update. -/
def step1 (t : Text) : Text :=
  if isSub original_block t then replaceAll original_block updated_block t else t

/-- Line 15-16 of the source: the guarded `.product-image img` update. -/
def step2 (t : Text) : Text :=
  if isSub img_block t then replaceAll img_block img_updated t else t

/-- Line 77-78 of the source: insertion of the carousel CSS after `marker`. -/
def step3 (t : Text) : Text :=
  if isSub carousel_css t then t
  else replaceAll marker (marker ++ carousel_css) t

/-- Line 81-82 of the source: insertion of the `carouselTimers` declaration
after `insert_point`. -/
def step4 (t : Text) : Text :=
  if isSub ct_guard t then t
  else replaceAll insert_point (insert_point ++ carousel_timers_decl) t

/-- Line 85-86 of the source: insertion of `clearCarouselTimers` after
`cache_marker`. -/
def step5 (t : Text) : Text :=
  if isSub cct_guard t then t
  else replaceAll cache_marker (cache_marker ++ clear_timers_fn) t

/-- Line 88-90 of the source: the final guarded block.  Its body only binds
the local string literals `primary_marker` and `get_images_fn`; it performs
no `text.replace`, so the text is returned unchanged on both branches. -/
def step6 (t : Text) : Text :=
  if isSub gpi_guard t then t
  else
    let _pm := primary_marker
    let _gf := get_images_fn
    t

/-- The full patch pipeline of the script, lines 6-90: the six guarded
steps in source order. -/
def applyRules (t : Text) : Text :=
  step6 (step5 (step4 (step3 (step2 (step1 t)))))

/-- An input/output action against persistent storage. -/
inductive IOEvent where
  | read : String → IOEvent
  | write : String → String → IOEvent
deriving DecidableEq

/-- The storage actions the script performs on a run whose `read_text`
returns `input`: line 4 reads `catalog.html`; no other storage call occurs
anywhere in the source (in particular there is no `write_text`). -/
def scriptTrace (_input : Text) : List IOEvent :=
  [IOEvent.read "catalog.html"]

/-- The in-memory result of a run of the script on `input`: the value of
`text` after line 90. -/
def scriptResult (input : Text) : Text := applyRules input

/-! ### Substring predicates and their Boolean tests -/

/-- `p` is a prefix of `s`. -/
def Pfx (p s : Text) : Prop := ∃ t, s = p ++ t

/-- `a` is a suffix of `s`. -/
def Sfx (a s : Text) : Prop := ∃ t, s = t ++ a

/-- `x` occurs as a contiguous substring of `s` (Python `x in s`). -/
def Occ (x s : Text) : Prop := ∃ a b, s = a ++ x ++ b

/-- Some nonempty suffix of `a` is a prefix of `b`: the two strings can
overlap at a junction where `a` ends and `b` starts. -/
def ovl (a b : Text) : Bool :=
  match a with
  | [] => false
  | c :: t => isPfx (c :: t) b || ovl t b

theorem isPfx_iff : ∀ p s : Text, isPfx p s = true ↔ Pfx p s := by
  intro p
  induction p with
  | nil => intro s; simp [isPfx, Pfx]
  | cons a x ih =>
    intro s
    cases s with
    | nil =>
      simp only [isPfx, Pfx]
      constructor
      · intro h; exact absurd h (by simp)
      · rintro ⟨t, ht⟩; simp at ht
    | cons b y =>
      simp only [isPfx, Bool.and_eq_true, beq_iff_eq, ih y, Pfx]
      constructor
      · rintro ⟨rfl, t, rfl⟩; exact ⟨t, rfl⟩
      · rintro ⟨t, ht⟩
        rw [List.cons_append] at ht
        obtain ⟨rfl, rfl⟩ : b = a ∧ y = x ++ t := by
          constructor <;> [exact (List.cons.injEq .. ▸ ht).1; exact (List.cons.injEq .. ▸ ht).2]
        exact ⟨rfl, t, rfl⟩

theorem pfx_refl (p : Text) : Pfx p p := ⟨[], by simp⟩

theorem pfx_nil_right {p : Text} (h : Pfx p []) : p = [] := by
  obtain ⟨t, ht⟩ := h; exact List.append_eq_nil.mp ht.symm |>.1

theorem occ_cons_iff {x : Text} {c : Char} {t : Text} :
    Occ x (c :: t) ↔ Pfx x (c :: t) ∨ Occ x t := by
  constructor
  · rintro ⟨a, b, h⟩
    cases a with
    | nil => exact Or.inl ⟨b, by simpa using h⟩
    | cons d a' =>
      rw [List.cons_append, List.cons_append] at h
      obtain ⟨rfl, rfl⟩ : c = d ∧ t = a' ++ x ++ b := by
        constructor <;> [exact (List.cons.injEq .. ▸ h).1; exact (List.cons.injEq .. ▸ h).2]
      exact Or.inr ⟨a', b, by simp⟩
  · rintro (⟨w, hw⟩ | ⟨a, b, h⟩)
    · exact ⟨[], w, by simpa using hw⟩
    · exact ⟨c :: a, b, by simp [h]⟩

theorem isSub_iff : ∀ p s : Text, isSub p s = true ↔ Occ p s := by
  intro p s
  induction s with
  | nil =>
    simp only [isSub, isPfx_iff]
    constructor
    · intro h; obtain ⟨t, ht⟩ := h
      exact ⟨[], t, by simpa using ht⟩
    · rintro ⟨a, b, h⟩
      refine ⟨b, ?_⟩
      have : a = [] := by cases a <;> simp_all
      simpa [this] using h
  | cons c t ih =>
    simp only [isSub, Bool.or_eq_true, isPfx_iff, ih, occ_cons_iff]

theorem occ_nil_iff {x : Text} : Occ x [] ↔ x = [] := by
  constructor
  · rintro ⟨a, b, h⟩
    rcases List.append_eq_nil.mp h.symm with ⟨h1, h2⟩
    exact (List.append_eq_nil.mp h1).2
  · rintro rfl; exact ⟨[], [], rfl⟩

theorem isSub_eq_false_iff {p s : Text} : isSub p s = false ↔ ¬ Occ p s := by
  rw [← isSub_iff]; cases isSub p s <;> simp

theorem pfx_occ {x s : Text} (h : Pfx x s) : Occ x s := by
  obtain ⟨t, rfl⟩ := h; exact ⟨[], t, rfl⟩

theorem sfx_occ {x s : Text} (h : Sfx x s) : Occ x s := by
  obtain ⟨t, rfl⟩ := h; exact ⟨t, [], by simp⟩

theorem occ_self (x : Text) : Occ x x := pfx_occ (pfx_refl x)

theorem occ_append_left {x b : Text} (a : Text) (h : Occ x b) : Occ x (a ++ b) := by
  obtain ⟨u, v, rfl⟩ := h; exact ⟨a ++ u, v, by simp⟩

theorem occ_append_right {x a : Text} (h : Occ x a) (b : Text) : Occ x (a ++ b) := by
  obtain ⟨u, v, rfl⟩ := h; exact ⟨u, v ++ b, by simp⟩

theorem occ_trans {x y z : Text} (h1 : Occ x y) (h2 : Occ y z) : Occ x z := by
  obtain ⟨a, b, rfl⟩ := h1
  obtain ⟨u, v, rfl⟩ := h2
  exact ⟨u ++ a, b ++ v, by simp⟩

theorem occ_cons {x t : Text} (c : Char) (h : Occ x t) : Occ x (c :: t) :=
  occ_append_left [c] h

theorem pfx_length_le {p s : Text} (h : Pfx p s) : p.length ≤ s.length := by
  obtain ⟨t, rfl⟩ := h; simp

theorem sfx_length_le {p s : Text} (h : Sfx p s) : p.length ≤ s.length := by
  obtain ⟨t, rfl⟩ := h; simp

theorem pfx_trans {x y z : Text} (h1 : Pfx x y) (h2 : Pfx y z) : Pfx x z := by
  obtain ⟨a, rfl⟩ := h1; obtain ⟨b, rfl⟩ := h2; exact ⟨a ++ b, by simp⟩

theorem sfx_cons_cases {u : Text} {c : Char} {t : Text} (h : Sfx u (c :: t)) :
    u = c :: t ∨ Sfx u t := by
  obtain ⟨w, hw⟩ := h
  cases w with
  | nil => exact Or.inl (by simpa using hw.symm)
  | cons d w' =>
    rw [List.cons_append] at hw
    exact Or.inr ⟨w', (List.cons.injEq .. ▸ hw).2⟩

theorem sfx_nil_right {u : Text} (h : Sfx u []) : u = [] := by
  obtain ⟨w, hw⟩ := h; exact (List.append_eq_nil.mp hw.symm).2

theorem ovl_sound {a b : Text} (h : ovl a b = false) :
    ∀ u : Text, u ≠ [] → Sfx u a → ¬ Pfx u b := by
  induction a with
  | nil =>
    intro u hu hs
    exact absurd (sfx_nil_right hs) hu
  | cons c t ih =>
    rw [ovl, Bool.or_eq_false_iff] at h
    intro u hu hs hp
    rcases sfx_cons_cases hs with rfl | hs'
    · exact absurd (isPfx_iff _ _ |>.mpr hp) (by simp [h.1])
    · exact ih h.2 u hu hs' hp

theorem pfx_of_pfx_append_le {x a b : Text} (h : Pfx x (a ++ b))
    (hl : x.length ≤ a.length) : Pfx x a := by
  obtain ⟨t, ht⟩ := h
  have hx : (a ++ b).take x.length = x := by
    rw [ht, List.take_append_eq_append_take, Nat.sub_self, List.take_zero,
      List.append_nil, List.take_length]
  rw [List.take_append_eq_append_take, Nat.sub_eq_zero_of_le hl, List.take_zero,
    List.append_nil] at hx
  refine ⟨a.drop x.length, ?_⟩
  conv_lhs => rw [← List.take_append_drop x.length a]
  rw [hx]

theorem pfx_append_cases {x a b : Text} (h : Pfx x (a ++ b)) :
    Pfx x a ∨ ∃ z, x = a ++ z ∧ Pfx z b := by
  rcases Nat.le_total x.length a.length with hl | hl
  · exact Or.inl (pfx_of_pfx_append_le h hl)
  · obtain ⟨t, ht⟩ := h
    refine Or.inr ⟨x.drop a.length, ?_, ?_⟩
    · have ha : (a ++ b).take a.length = a := by
        rw [List.take_append_eq_append_take, Nat.sub_self, List.take_zero,
          List.append_nil, List.take_length]
      rw [ht, List.take_append_eq_append_take, Nat.sub_eq_zero_of_le hl,
        List.take_zero, List.append_nil] at ha
      conv_lhs => rw [← List.take_append_drop a.length x]
      rw [ha]
    · have hb := congrArg (List.drop a.length) ht
      rw [List.drop_left, List.drop_append_eq_append_drop,
        Nat.sub_eq_zero_of_le hl, List.drop_zero] at hb
      exact ⟨t, hb⟩

theorem sfx_refl (a : Text) : Sfx a a := ⟨[], rfl⟩

theorem sfx_cons {u t : Text} (c : Char) (h : Sfx u t) : Sfx u (c :: t) := by
  obtain ⟨w, rfl⟩ := h; exact ⟨c :: w, rfl⟩

theorem sfx_append_left {u b : Text} (a : Text) (h : Sfx u b) : Sfx u (a ++ b) := by
  obtain ⟨w, rfl⟩ := h; exact ⟨a ++ w, by simp⟩

theorem sfx_eq_of_length {u a : Text} (h : Sfx u a) (hl : a.length ≤ u.length) :
    u = a := by
  obtain ⟨w, rfl⟩ := h
  have hw : w.length = 0 := by
    rw [List.length_append] at hl; omega
  rw [List.length_eq_zero.mp hw, List.nil_append]

/-- Full case analysis of one occurrence inside an appended pair: the
occurrence lies in the left part, in the right part, or straddles the
junction. -/
theorem occ_append_cases {x a b : Text} (h : Occ x (a ++ b)) :
    Occ x a ∨ Occ x b ∨
      ∃ u v, x = u ++ v ∧ u ≠ [] ∧ v ≠ [] ∧ Sfx u a ∧ Pfx v b := by
  induction a with
  | nil => exact Or.inr (Or.inl (by simpa using h))
  | cons c a' ih =>
    rw [List.cons_append] at h
    rcases occ_cons_iff.mp h with hp | ho
    · rw [← List.cons_append] at hp
      rcases pfx_append_cases hp with hxa | ⟨z, hxz, hzb⟩
      · exact Or.inl (pfx_occ hxa)
      · cases z with
        | nil => exact Or.inl (by rw [hxz, List.append_nil]; exact occ_self _)
        | cons d z' =>
          exact Or.inr (Or.inr ⟨c :: a', d :: z', hxz, by simp, by simp,
            sfx_refl _, hzb⟩)
    · rcases ih ho with h1 | h2 | ⟨u, v, h3, h4, h5, h6, h7⟩
      · exact Or.inl (occ_cons c h1)
      · exact Or.inr (Or.inl h2)
      · exact Or.inr (Or.inr ⟨u, v, h3, h4, h5, sfx_cons c h6, h7⟩)

theorem drop_cons_self {X : Text} {k : Nat} (h : k < X.length) :
    ∃ c : Char, X.drop k = c :: X.drop (k + 1) ∧ X.take (k + 1) = X.take k ++ [c] := by
  induction X generalizing k with
  | nil => simp at h
  | cons d t ih =>
    cases k with
    | zero => exact ⟨d, by simp⟩
    | succ k' =>
      obtain ⟨c, h1, h2⟩ := ih (by simpa using Nat.lt_of_succ_lt_succ h)
      exact ⟨c, by simpa using h1, by simp [h2]⟩

/-! ### Recursion equations for `replaceAll` -/

theorem rAux_fuel (pat rep : Text) :
    ∀ n m (s : Text), s.length ≤ n → s.length ≤ m →
      rAux pat rep n s = rAux pat rep m s := by
  intro n
  induction n with
  | zero =>
    intro m s hn _
    have hs : s = [] := by cases s <;> simp_all
    subst hs; cases m <;> rfl
  | succ n' ih =>
    intro m s hn hm
    cases s with
    | nil => cases m <;> rfl
    | cons c t =>
      cases m with
      | zero => simp at hm
      | succ m' =>
        have h1 : t.length ≤ n' := by simpa using hn
        have h2 : t.length ≤ m' := by simpa using hm
        cases he : pat.isEmpty with
        | true =>
          simp only [rAux, he, if_true]
          rw [ih m' t h1 h2]
        | false =>
          have hplen : 1 ≤ pat.length := by
            cases pat with
            | nil => simp [List.isEmpty] at he
            | cons _ _ => simp
          have hd : ((c :: t).drop pat.length).length ≤ t.length := by
            simp only [List.length_drop, List.length_cons]; omega
          cases hp : isPfx pat (c :: t) with
          | true =>
            simp only [rAux, he, hp, Bool.false_eq_true, if_false, if_true]
            rw [ih m' _ (le_trans hd h1) (le_trans hd h2)]
          | false =>
            simp only [rAux, he, hp, Bool.false_eq_true, if_false]
            rw [ih m' t h1 h2]

theorem replaceAll_nil (pat rep : Text) :
    replaceAll pat rep [] = if pat.isEmpty then rep else [] := rfl

theorem replaceAll_pos {pat : Text} (rep : Text) {c : Char} {t : Text}
    (hp : pat ≠ []) (h : isPfx pat (c :: t) = true) :
    replaceAll pat rep (c :: t) =
      rep ++ replaceAll pat rep ((c :: t).drop pat.length) := by
  have he : pat.isEmpty = false := by cases pat <;> simp_all [List.isEmpty]
  show rAux pat rep (c :: t).length (c :: t) = _
  rw [show (c :: t).length = t.length + 1 from by simp, rAux, he, h]
  simp only [Bool.false_eq_true, if_false, if_true]
  congr 1
  apply rAux_fuel
  · have hplen : 1 ≤ pat.length := by
      cases pat with
      | nil => simp at hp
      | cons _ _ => simp
    simp only [List.length_drop, List.length_cons]
    omega
  · exact le_refl _

theorem replaceAll_neg {pat : Text} (rep : Text) {c : Char} {t : Text}
    (hp : pat ≠ []) (h : isPfx pat (c :: t) = false) :
    replaceAll pat rep (c :: t) = c :: replaceAll pat rep t := by
  have he : pat.isEmpty = false := by cases pat <;> simp_all [List.isEmpty]
  show rAux pat rep (c :: t).length (c :: t) = _
  rw [show (c :: t).length = t.length + 1 from by simp, rAux, he, h]
  simp [replaceAll]

theorem replaceAll_head_match {pat : Text} (rep : Text) {s : Text}
    (hpat : pat ≠ []) (h : Pfx pat s) :
    replaceAll pat rep s = rep ++ replaceAll pat rep (s.drop pat.length) := by
  cases s with
  | nil => exact absurd (pfx_nil_right h) hpat
  | cons c t => exact replaceAll_pos rep hpat ((isPfx_iff _ _).mpr h)

theorem replaceAll_nomatch {pat rep s : Text} (hp : pat ≠ []) (h : ¬ Occ pat s) :
    replaceAll pat rep s = s := by
  induction s with
  | nil => simp [replaceAll_nil, show pat.isEmpty = false from by
      cases pat <;> simp_all [List.isEmpty]]
  | cons c t ih =>
    have hnp : isPfx pat (c :: t) = false := by
      cases hpp : isPfx pat (c :: t)
      · rfl
      · exact absurd (pfx_occ (isPfx_iff _ _ |>.mp hpp)) h
    rw [replaceAll_neg rep hp hnp, ih (fun ho => h (occ_cons c ho))]

/-- The first replacement performed by `replaceAll` on a text in which the
pattern occurs: the text splits as `p ++ pat ++ q` and the result is
`p ++ rep ++ replaceAll pat rep q`. -/
theorem replaceAll_decomp {pat : Text} (rep : Text) {s : Text} (hp : pat ≠ []) (h : Occ pat s) :
    ∃ p q, s = p ++ pat ++ q ∧
      replaceAll pat rep s = p ++ rep ++ replaceAll pat rep q := by
  induction s with
  | nil => exact absurd (occ_nil_iff.mp h) hp
  | cons c t ih =>
    cases hpp : isPfx pat (c :: t) with
    | true =>
      obtain ⟨w, hw⟩ := isPfx_iff _ _ |>.mp hpp
      refine ⟨[], w, by simpa using hw, ?_⟩
      rw [replaceAll_pos rep hp hpp, hw, List.drop_left]
      simp
    | false =>
      have ht : Occ pat t := by
        rcases occ_cons_iff.mp h with hpf | ho
        · exact absurd (isPfx_iff _ _ |>.mpr hpf) (by simp [hpp])
        · exact ho
      obtain ⟨p, q, h1, h2⟩ := ih ht
      exact ⟨c :: p, q, by simp [h1], by rw [replaceAll_neg rep hp hpp, h2]; simp⟩

/-- After a replacement fires, the replacement string occurs in the result. -/
theorem occ_rep_after {pat rep s : Text} (hpat : pat ≠ []) (h : Occ pat s) :
    Occ rep (replaceAll pat rep s) := by
  obtain ⟨p, q, _, hR⟩ := replaceAll_decomp rep hpat h
  exact hR ▸ ⟨p, replaceAll pat rep q, by simp⟩

/-- Replacing by a string at least as long never shortens the text. -/
theorem replaceAll_length_ge {pat rep : Text} (hpat : pat ≠ [])
    (hlen : pat.length ≤ rep.length) :
    ∀ (n : Nat) (s : Text), s.length ≤ n →
      s.length ≤ (replaceAll pat rep s).length := by
  intro n
  induction n with
  | zero =>
    intro s hn
    have hs : s = [] := by cases s <;> simp_all
    subst hs; simp
  | succ n' ih =>
    intro s hn
    cases s with
    | nil => simp
    | cons c t =>
      have h1 : t.length ≤ n' := by simpa using hn
      cases hp : isPfx pat (c :: t) with
      | true =>
        obtain ⟨w, hw⟩ := isPfx_iff _ _ |>.mp hp
        have hdrop : (c :: t).drop pat.length = w := by rw [hw, List.drop_left]
        have hwlen : w.length ≤ n' := by
          have := congrArg List.length hw
          have hple : 1 ≤ pat.length := by
            cases pat with
            | nil => simp at hpat
            | cons _ _ => simp
          simp at this; omega
        rw [replaceAll_pos rep hpat hp, hdrop]
        have := ih w hwlen
        have hslen : (c :: t).length = pat.length + w.length := by
          rw [hw]; simp
        simp only [List.length_append]
        omega
      | false =>
        rw [replaceAll_neg rep hpat hp]
        have := ih t h1
        simp only [List.length_cons]
        omega

/-- Non-creation: if `X` does not occur in `s` and cannot be produced by
splicing `rep` into the text (no containment either way, no junction
overlap on either side), then `X` does not occur after the replacement. -/
theorem occ_preserve_absent {pat rep X : Text} (hpat : pat ≠ []) (hX : X ≠ [])
    (c1 : ¬ Occ X rep) (c2 : ¬ Occ rep X)
    (c3 : ovl rep X = false) (c4 : ovl X rep = false) :
    ∀ (n : Nat) (s : Text), s.length ≤ n → ¬ Occ X s →
      ¬ Occ X (replaceAll pat rep s) := by
  intro n
  induction n with
  | zero =>
    intro s hn habs
    have hs : s = [] := by cases s <;> simp_all
    subst hs
    rw [replaceAll_nomatch hpat (fun ho => hpat (occ_nil_iff.mp ho))]
    exact habs
  | succ n' ih =>
    intro s hn habs
    cases s with
    | nil =>
      rw [replaceAll_nomatch hpat (fun ho => hpat (occ_nil_iff.mp ho))]
      exact habs
    | cons c t =>
      have h1 : t.length ≤ n' := by simpa using hn
      have habt : ¬ Occ X t := fun ho => habs (occ_cons c ho)
      cases hp : isPfx pat (c :: t) with
      | true =>
        obtain ⟨w, hw⟩ := isPfx_iff _ _ |>.mp hp
        have hdrop : (c :: t).drop pat.length = w := by rw [hw, List.drop_left]
        have hwlen : w.length ≤ n' := by
          have := congrArg List.length hw
          have hple : 1 ≤ pat.length := by
            cases pat with
            | nil => simp at hpat
            | cons _ _ => simp
          simp at this; omega
        have habw : ¬ Occ X w := fun ho => habs (hw ▸ occ_append_left pat ho)
        rw [replaceAll_pos rep hpat hp, hdrop]
        intro hocc
        rcases occ_append_cases hocc with h' | h' | ⟨u, v, hx, hu, hv, hsu, hpv⟩
        · exact c1 h'
        · exact ih w hwlen habw h'
        · exact ovl_sound c3 u hu hsu ⟨v, hx⟩
      | false =>
        rw [replaceAll_neg rep hpat hp]
        intro hocc
        rcases occ_cons_iff.mp hocc with hpf | ho
        · -- X is a prefix of c :: replaceAll pat rep t
          cases X with
          | nil => exact hX rfl
          | cons d X' =>
            obtain ⟨w₀, hw₀⟩ := hpf
            have hcd : c = d ∧ replaceAll pat rep t = X' ++ w₀ := by
              rw [List.cons_append] at hw₀
              exact ⟨(List.cons.injEq .. ▸ hw₀).1, (List.cons.injEq .. ▸ hw₀).2⟩
            obtain ⟨rfl, hRt⟩ := hcd
            have hX't : ¬ Pfx X' t := by
              intro ⟨z, hz⟩
              exact habs ⟨[], z, by simp [hz]⟩
            by_cases hot : Occ pat t
            · obtain ⟨p, q, hts, hR⟩ := replaceAll_decomp rep hpat hot
              have hpfx' : Pfx X' (p ++ rep ++ replaceAll pat rep q) := ⟨w₀, by
                rw [← hR, hRt]⟩
              rw [List.append_assoc] at hpfx'
              rcases pfx_append_cases hpfx' with hXp | ⟨z, hXz, hzr⟩
              · exact hX't (pfx_trans hXp ⟨pat ++ q, by rw [hts, List.append_assoc]⟩)
              · cases z with
                | nil =>
                  have hX'p : X' = p := by simpa using hXz
                  exact hX't (hX'p ▸ ⟨pat ++ q, by rw [hts, List.append_assoc]⟩)
                | cons e z' =>
                  have hsz : Sfx (e :: z') (c :: X') := ⟨c :: p, by rw [hXz]; simp⟩
                  rcases pfx_append_cases hzr with hzrep | ⟨z₂, hz₂, _⟩
                  · exact ovl_sound c4 (e :: z') (by simp) hsz hzrep
                  · exact c2 ⟨c :: p, z₂, by rw [List.cons_append, hXz, hz₂]; simp⟩
            · rw [replaceAll_nomatch hpat hot] at hRt
              exact hX't ⟨w₀, hRt⟩
        · exact ih t h1 habt ho

/-- Self-removal: after `replaceAll pat rep`, the pattern itself no longer
occurs, provided it cannot be rebuilt out of `rep` and junction overlaps. -/
theorem occ_pat_gone {pat rep : Text} (hpat : pat ≠ [])
    (c1 : ¬ Occ pat rep) (c2 : ¬ Occ rep pat)
    (c3 : ovl rep pat = false) (c4 : ovl pat rep = false) :
    ∀ (n : Nat) (s : Text), s.length ≤ n →
      ¬ Occ pat (replaceAll pat rep s) := by
  intro n
  induction n with
  | zero =>
    intro s hn
    have hs : s = [] := by cases s <;> simp_all
    subst hs
    rw [replaceAll_nomatch hpat (fun ho => hpat (occ_nil_iff.mp ho))]
    exact fun ho => hpat (occ_nil_iff.mp ho)
  | succ n' ih =>
    intro s hn
    cases s with
    | nil =>
      rw [replaceAll_nomatch hpat (fun ho => hpat (occ_nil_iff.mp ho))]
      exact fun ho => hpat (occ_nil_iff.mp ho)
    | cons c t =>
      have h1 : t.length ≤ n' := by simpa using hn
      cases hp : isPfx pat (c :: t) with
      | true =>
        obtain ⟨w, hw⟩ := isPfx_iff _ _ |>.mp hp
        have hdrop : (c :: t).drop pat.length = w := by rw [hw, List.drop_left]
        have hwlen : w.length ≤ n' := by
          have := congrArg List.length hw
          have hple : 1 ≤ pat.length := by
            cases pat with
            | nil => simp at hpat
            | cons _ _ => simp
          simp at this; omega
        rw [replaceAll_pos rep hpat hp, hdrop]
        intro hocc
        rcases occ_append_cases hocc with h' | h' | ⟨u, v, hx, hu, hv, hsu, hpv⟩
        · exact c1 h'
        · exact ih w hwlen h'
        · exact ovl_sound c3 u hu hsu ⟨v, hx⟩
      | false =>
        rw [replaceAll_neg rep hpat hp]
        intro hocc
        rcases occ_cons_iff.mp hocc with hpf | ho
        · cases hX : pat with
          | nil => exact hpat hX
          | cons d pat' =>
            subst hX
            obtain ⟨w₀, hw₀⟩ := hpf
            have hcd : c = d ∧ replaceAll (d :: pat') rep t = pat' ++ w₀ := by
              rw [List.cons_append] at hw₀
              exact ⟨(List.cons.injEq .. ▸ hw₀).1, (List.cons.injEq .. ▸ hw₀).2⟩
            obtain ⟨rfl, hRt⟩ := hcd
            have hX't : ¬ Pfx pat' t := by
              intro ⟨z, hz⟩
              have : isPfx (c :: pat') (c :: t) = true := by
                apply (isPfx_iff _ _).mpr ⟨z, by rw [hz]; simp⟩
              simp [hp] at this
            by_cases hot : Occ (c :: pat') t
            · obtain ⟨p, q, hts, hR⟩ := replaceAll_decomp rep hpat hot
              have hpfx' : Pfx pat' (p ++ rep ++ replaceAll (c :: pat') rep q) := ⟨w₀, by
                rw [← hR, hRt]⟩
              rw [List.append_assoc] at hpfx'
              rcases pfx_append_cases hpfx' with hXp | ⟨z, hXz, hzr⟩
              · exact hX't (pfx_trans hXp ⟨(c :: pat') ++ q, by
                  rw [hts, List.append_assoc]⟩)
              · cases z with
                | nil =>
                  have hX'p : pat' = p := by simpa using hXz
                  exact hX't (hX'p ▸ ⟨(c :: pat') ++ q, by
                    rw [hts, List.append_assoc]⟩)
                | cons e z' =>
                  have hsz : Sfx (e :: z') (c :: pat') := ⟨c :: p, by rw [hXz]; simp⟩
                  rcases pfx_append_cases hzr with hzrep | ⟨z₂, hz₂, _⟩
                  · exact ovl_sound c4 (e :: z') (by simp) hsz hzrep
                  · exact c2 ⟨c :: p, z₂, by rw [List.cons_append, hXz, hz₂]; simp⟩
            · rw [replaceAll_nomatch hpat hot] at hRt
              exact hX't ⟨w₀, hRt⟩
        · exact ih t h1 ho

/-- When the pattern occurs exactly once, `replaceAll` is the splice of
`rep` into the place of that single occurrence. -/
theorem replaceAll_unique {pat rep : Text} (hpat : pat ≠ []) :
    ∀ A B : Text,
      (∀ i, Pfx pat ((A ++ pat ++ B).drop i) → i = A.length) →
      replaceAll pat rep (A ++ pat ++ B) = A ++ rep ++ B := by
  intro A
  induction A with
  | nil =>
    intro B hu
    simp only [List.nil_append]
    have hnoB : ¬ Occ pat B := by
        rintro ⟨a, b, hB⟩
        have hi : Pfx pat ((pat ++ B).drop (pat.length + a.length)) := by
          have hdrop : (pat ++ B).drop (pat.length + a.length) = B.drop a.length := by
            rw [List.drop_append_eq_append_drop,
              List.drop_of_length_le (by omega), Nat.add_sub_cancel_left,
              List.nil_append]
          rw [hdrop, hB, List.append_assoc, List.drop_left]
          exact ⟨b, rfl⟩
        have h0 := hu (pat.length + a.length) (by simpa using hi)
        rw [List.length_nil] at h0
        have hple : 1 ≤ pat.length := by
          cases pat with
          | nil => simp at hpat
          | cons _ _ => simp
        omega
    rw [replaceAll_head_match rep hpat ⟨B, rfl⟩, List.drop_left,
      replaceAll_nomatch hpat hnoB]
  | cons c A' ih =>
    intro B hu
    have hnp : isPfx pat ((c :: A') ++ pat ++ B) = false := by
      cases hpp : isPfx pat ((c :: A') ++ pat ++ B)
      · rfl
      · have := hu 0 (by
          rw [List.drop_zero]
          exact (isPfx_iff _ _).mp hpp)
        simp at this
    rw [show (c :: A') ++ pat ++ B = c :: (A' ++ pat ++ B) from by simp] at hnp ⊢
    rw [replaceAll_neg rep hpat hnp]
    rw [ih B (fun i hi => by
      have := hu (i + 1) (by
        rw [show ((c :: A') ++ pat ++ B) = c :: (A' ++ pat ++ B) from by simp]
        simpa using hi)
      simpa using this)]
    simp

/-- A replacement of `P` scanned over the text can end at offset `k` inside
an occurrence of `X`: either a full match of `P` ends there within `X`, or
the match began before `X` and its tail is the first `k` characters of `X`. -/
def CanEnd (P X : Text) (k : Nat) : Prop :=
  (∃ j, j + P.length = k ∧ Pfx P (X.drop j)) ∨
    (k < P.length ∧ Sfx (X.take k) P)

/-- Reconstitution, accumulated form: if the text continues with the tail
`X.drop k` of a broken occurrence of `X`, then `X` occurs in
`X.take k ++ replaceAll P (P ++ G) s`, provided every break offset of `X`
is a suffix of the inserted text `G`. -/
theorem theta {P G X : Text} (hP : P ≠ [])
    (hsc : ∀ k, 0 < k → k < X.length → CanEnd P X k → Sfx (X.take k) G) :
    ∀ (n : Nat) (s : Text) (k : Nat), s.length ≤ n → 0 < k → k < X.length →
      Pfx (X.drop k) s →
      Occ X (X.take k ++ replaceAll P (P ++ G) s) := by
  intro n
  induction n with
  | zero =>
    intro s k hn h0 hk hpfx
    have hs : s = [] := by cases s <;> simp_all
    subst hs
    have hnil : X.drop k = [] := pfx_nil_right hpfx
    have : X.length ≤ k := by
      have := congrArg List.length hnil
      simp at this
      omega
    omega
  | succ n' ih =>
    intro s k hn h0 hk hpfx
    cases s with
    | nil =>
      have hnil : X.drop k = [] := pfx_nil_right hpfx
      have : X.length ≤ k := by
        have := congrArg List.length hnil
        simp at this
        omega
      omega
    | cons c t =>
      have h1 : t.length ≤ n' := by simpa using hn
      have hple : 1 ≤ P.length := by
        cases P with
        | nil => simp at hP
        | cons _ _ => simp
      cases hp : isPfx P (c :: t) with
      | true =>
        obtain ⟨s₂, hs⟩ := isPfx_iff _ _ |>.mp hp
        have hdrop : (c :: t).drop P.length = s₂ := by rw [hs, List.drop_left]
        have hs2len : s₂.length ≤ n' := by
          have hlen := congrArg List.length hs
          rw [List.length_cons, List.length_append] at hlen
          omega
        rw [replaceAll_pos (P ++ G) hP hp, hdrop]
        rw [hs] at hpfx
        rcases Nat.lt_or_ge (k + P.length) X.length with hlt | hge
        · -- the match of P lies inside X, ending at k + P.length < X.length
          rcases pfx_append_cases hpfx with hxp | ⟨z, hz, hzs⟩
          · have := pfx_length_le hxp
            rw [List.length_drop] at this
            omega
          · set k2 := k + P.length with hk2
            have h02 : 0 < k2 := by omega
            have hk2lt : k2 < X.length := by omega
            have hPdk : Pfx P (X.drop k) := ⟨z, hz⟩
            have hce : CanEnd P X k2 := Or.inl ⟨k, rfl, hPdk⟩
            obtain ⟨G₁, hG⟩ := hsc k2 h02 hk2lt hce
            have hzdk : z = X.drop k2 := by
              have hdd := congrArg (List.drop P.length) hz
              rw [List.drop_drop, List.drop_left] at hdd
              rw [hk2]
              exact hdd.symm
            have hpfx2 : Pfx (X.drop k2) s₂ := hzdk ▸ hzs
            have hIH := ih s₂ k2 hs2len h02 hk2lt hpfx2
            have hEq : X.take k ++ ((P ++ G) ++ replaceAll P (P ++ G) s₂)
                = (X.take k ++ P ++ G₁) ++ (X.take k2 ++ replaceAll P (P ++ G) s₂) := by
              rw [hG]; simp [List.append_assoc]
            rw [hEq]
            exact occ_append_left _ hIH
        · -- the match swallows the rest of X: X.drop k is a prefix of P
          have hxp : Pfx (X.drop k) P :=
            pfx_of_pfx_append_le hpfx (by rw [List.length_drop]; omega)
          obtain ⟨w, hw⟩ := hxp
          refine ⟨[], w ++ G ++ replaceAll P (P ++ G) s₂, ?_⟩
          rw [List.nil_append]
          nth_rewrite 1 [hw]
          conv_rhs => rw [← List.take_append_drop k X]
          simp only [List.append_assoc]
      | false =>
        rw [replaceAll_neg (P ++ G) hP hp]
        obtain ⟨ck, hdk, htk⟩ := drop_cons_self hk
        have hceq : ck = c := by
          rw [hdk] at hpfx
          obtain ⟨w₀, hw₀⟩ := hpfx
          rw [List.cons_append] at hw₀
          exact ((List.cons.injEq .. ▸ hw₀).1).symm
        rw [hceq] at hdk htk
        have hpfx' : Pfx (X.drop (k + 1)) t := by
          rw [hdk] at hpfx
          obtain ⟨w₀, hw₀⟩ := hpfx
          rw [List.cons_append] at hw₀
          exact ⟨w₀, (List.cons.injEq .. ▸ hw₀).2⟩
        rcases Nat.lt_or_ge (k + 1) X.length with hk1 | hk1
        · have hIH := ih t (k + 1) h1 (by omega) hk1 hpfx'
          rw [show X.take k ++ (c :: replaceAll P (P ++ G) t)
              = (X.take k ++ [c]) ++ replaceAll P (P ++ G) t from by simp,
            ← htk]
          exact hIH
        · have hXfull : X.take (k + 1) = X := by
            apply List.take_of_length_le
            omega
          rw [show X.take k ++ (c :: replaceAll P (P ++ G) t)
              = (X.take k ++ [c]) ++ replaceAll P (P ++ G) t from by simp,
            ← htk, hXfull]
          exact occ_append_right (occ_self X) _

/-- Prefix survival with possible reconstitution: a tail of `X` that is a
prefix of the text either survives as a prefix of the replaced text, or a
break happened and the whole of `X` occurs in the result. -/
theorem phi {P G X : Text} (hP : P ≠ [])
    (hsc : ∀ k, 0 < k → k < X.length → CanEnd P X k → Sfx (X.take k) G) :
    ∀ (n : Nat) (s : Text) (k : Nat), s.length ≤ n → 0 < k → k < X.length →
      Pfx (X.drop k) s →
      Pfx (X.drop k) (replaceAll P (P ++ G) s) ∨
        Occ X (replaceAll P (P ++ G) s) := by
  intro n
  induction n with
  | zero =>
    intro s k hn h0 hk hpfx
    have hs : s = [] := by cases s <;> simp_all
    subst hs
    have hnil : X.drop k = [] := pfx_nil_right hpfx
    have : X.length ≤ k := by
      have := congrArg List.length hnil
      simp at this
      omega
    omega
  | succ n' ih =>
    intro s k hn h0 hk hpfx
    cases s with
    | nil =>
      have hnil : X.drop k = [] := pfx_nil_right hpfx
      have : X.length ≤ k := by
        have := congrArg List.length hnil
        simp at this
        omega
      omega
    | cons c t =>
      have h1 : t.length ≤ n' := by simpa using hn
      have hple : 1 ≤ P.length := by
        cases P with
        | nil => simp at hP
        | cons _ _ => simp
      cases hp : isPfx P (c :: t) with
      | true =>
        obtain ⟨s₂, hs⟩ := isPfx_iff _ _ |>.mp hp
        have hdrop : (c :: t).drop P.length = s₂ := by rw [hs, List.drop_left]
        have hs2len : s₂.length ≤ n' := by
          have hlen := congrArg List.length hs
          rw [List.length_cons, List.length_append] at hlen
          omega
        rw [replaceAll_pos (P ++ G) hP hp, hdrop]
        rw [hs] at hpfx
        rcases Nat.lt_or_ge (k + P.length) X.length with hlt | hge
        · rcases pfx_append_cases hpfx with hxp | ⟨z, hz, hzs⟩
          · have := pfx_length_le hxp
            rw [List.length_drop] at this
            omega
          · set k2 := k + P.length with hk2
            have h02 : 0 < k2 := by omega
            have hk2lt : k2 < X.length := by omega
            have hce : CanEnd P X k2 := Or.inl ⟨k, rfl, ⟨z, hz⟩⟩
            obtain ⟨G₁, hG⟩ := hsc k2 h02 hk2lt hce
            have hzdk : z = X.drop k2 := by
              have hdd := congrArg (List.drop P.length) hz
              rw [List.drop_drop, List.drop_left] at hdd
              rw [hk2]
              exact hdd.symm
            have hIH := theta hP hsc n' s₂ k2 hs2len h02 hk2lt (hzdk ▸ hzs)
            refine Or.inr ?_
            have hEq : (P ++ G) ++ replaceAll P (P ++ G) s₂
                = (P ++ G₁) ++ (X.take k2 ++ replaceAll P (P ++ G) s₂) := by
              rw [hG]; simp [List.append_assoc]
            rw [hEq]
            exact occ_append_left _ hIH
        · have hxp : Pfx (X.drop k) P :=
            pfx_of_pfx_append_le hpfx (by rw [List.length_drop]; omega)
          exact Or.inl (pfx_trans hxp ⟨G ++ replaceAll P (P ++ G) s₂, by
            simp [List.append_assoc]⟩)
      | false =>
        rw [replaceAll_neg (P ++ G) hP hp]
        obtain ⟨ck, hdk, htk⟩ := drop_cons_self hk
        have hceq : ck = c := by
          rw [hdk] at hpfx
          obtain ⟨w₀, hw₀⟩ := hpfx
          rw [List.cons_append] at hw₀
          exact ((List.cons.injEq .. ▸ hw₀).1).symm
        rw [hceq] at hdk htk
        have hpfx' : Pfx (X.drop (k + 1)) t := by
          rw [hdk] at hpfx
          obtain ⟨w₀, hw₀⟩ := hpfx
          rw [List.cons_append] at hw₀
          exact ⟨w₀, (List.cons.injEq .. ▸ hw₀).2⟩
        rcases Nat.lt_or_ge (k + 1) X.length with hk1 | hk1
        · rcases ih t (k + 1) h1 (by omega) hk1 hpfx' with hL | hR
          · refine Or.inl ?_
            rw [hdk]
            obtain ⟨w, hw⟩ := hL
            exact ⟨w, by simp [hw]⟩
          · exact Or.inr (occ_cons c hR)
        · refine Or.inl ?_
          rw [hdk]
          have hnil : X.drop (k + 1) = [] := by
            apply List.drop_of_length_le
            omega
          rw [hnil]
          exact ⟨replaceAll P (P ++ G) t, rfl⟩

/-- Occurrence preservation for the insert-after-anchor form
`replaceAll P (P ++ G)`: an occurrence of `X` survives, because any match
of `P` that would cut an occurrence of `X` at offset `k` forces `X.take k`
to be a suffix of the inserted text `G`, which reconstitutes `X`. -/
theorem occ_preserve_insert {P G X : Text} (hP : P ≠ []) (hX : X ≠ [])
    (hsc : ∀ k, 0 < k → k < X.length → CanEnd P X k → Sfx (X.take k) G) :
    ∀ (n : Nat) (s : Text), s.length ≤ n → Occ X s →
      Occ X (replaceAll P (P ++ G) s) := by
  intro n
  induction n with
  | zero =>
    intro s hn hocc
    have hs : s = [] := by cases s <;> simp_all
    subst hs
    exact absurd (occ_nil_iff.mp hocc) hX
  | succ n' ih =>
    intro s hn hocc
    cases s with
    | nil => exact absurd (occ_nil_iff.mp hocc) hX
    | cons c t =>
      have h1 : t.length ≤ n' := by simpa using hn
      have hple : 1 ≤ P.length := by
        cases P with
        | nil => simp at hP
        | cons _ _ => simp
      cases hp : isPfx P (c :: t) with
      | true =>
        obtain ⟨s₂, hs⟩ := isPfx_iff _ _ |>.mp hp
        have hdrop : (c :: t).drop P.length = s₂ := by rw [hs, List.drop_left]
        have hs2len : s₂.length ≤ n' := by
          have hlen := congrArg List.length hs
          rw [List.length_cons, List.length_append] at hlen
          omega
        rw [replaceAll_pos (P ++ G) hP hp, hdrop]
        rw [hs] at hocc
        rcases occ_append_cases hocc with h' | h' | ⟨u, v, hx, hu, hv, hsu, hpv⟩
        · exact occ_append_right (occ_append_right h' G) _
        · exact occ_append_left _ (ih s₂ hs2len h')
        · set k := u.length with hku
          have hu0 : 0 < k := by cases u <;> simp_all
          have hvlen : 1 ≤ v.length := by
            cases v with
            | nil => exact absurd rfl hv
            | cons d v' => simp
          have hkX : k < X.length := by
            rw [hx, List.length_append]
            omega
          have hutake : u = X.take k := by
            rw [hx, List.take_left]
          have hvdrop : v = X.drop k := by
            rw [hx, List.drop_left]
          have hkP : k ≤ P.length := by
            have := sfx_length_le hsu
            omega
          have hce : CanEnd P X k := by
            rcases Nat.lt_or_ge k P.length with hklt | hkge
            · exact Or.inr ⟨hklt, hutake ▸ hsu⟩
            · have huP : u = P := sfx_eq_of_length hsu (by omega)
              refine Or.inl ⟨0, by omega, ?_⟩
              rw [List.drop_zero, hx, huP]
              exact ⟨v, rfl⟩
          obtain ⟨G₁, hG⟩ := hsc k hu0 hkX hce
          have hIH := theta hP hsc n' s₂ k hs2len hu0 hkX (hvdrop ▸ hpv)
          have hEq : (P ++ G) ++ replaceAll P (P ++ G) s₂
              = (P ++ G₁) ++ (X.take k ++ replaceAll P (P ++ G) s₂) := by
            rw [hG]; simp [List.append_assoc]
          rw [hEq]
          exact occ_append_left _ hIH
      | false =>
        rw [replaceAll_neg (P ++ G) hP hp]
        rcases occ_cons_iff.mp hocc with hpf | ho
        · cases X with
          | nil => exact absurd rfl hX
          | cons d X' =>
            obtain ⟨w₀, hw₀⟩ := hpf
            have hcd : c = d ∧ Pfx X' t := by
              rw [List.cons_append] at hw₀
              exact ⟨(List.cons.injEq .. ▸ hw₀).1, w₀, (List.cons.injEq .. ▸ hw₀).2⟩
            obtain ⟨rfl, hX't⟩ := hcd
            by_cases hX'e : X' = []
            · exact ⟨[], replaceAll P (P ++ G) t, by simp [hX'e]⟩
            · have h1X : 1 < (c :: X').length := by
                cases X' with
                | nil => exact absurd rfl hX'e
                | cons _ _ => simp
              have hdX : (c :: X').drop 1 = X' := by simp
              rcases phi hP hsc n' t 1 h1 Nat.one_pos h1X
                  (by rw [hdX]; exact hX't) with hL | hR
              · rw [hdX] at hL
                obtain ⟨w, hw⟩ := hL
                exact ⟨[], w, by simp [hw]⟩
              · exact occ_cons c hR
        · exact occ_cons c (ih t h1 ho)

/-- Prefix survival under a replacement whose pattern cannot intersect an
occurrence of `X` at all. -/
theorem phiR {pat : Text} (rep : Text) {X : Text} (hpat : pat ≠ [])
    (d1 : ¬ Occ pat X) (d2 : ovl X pat = false) :
    ∀ (n : Nat) (s : Text) (k : Nat), s.length ≤ n → 0 < k → k < X.length →
      Pfx (X.drop k) s →
      Pfx (X.drop k) (replaceAll pat rep s) := by
  intro n
  induction n with
  | zero =>
    intro s k hn h0 hk hpfx
    have hs : s = [] := by cases s <;> simp_all
    subst hs
    have hnil : X.drop k = [] := pfx_nil_right hpfx
    have : X.length ≤ k := by
      have := congrArg List.length hnil
      simp at this
      omega
    omega
  | succ n' ih =>
    intro s k hn h0 hk hpfx
    cases s with
    | nil =>
      have hnil : X.drop k = [] := pfx_nil_right hpfx
      have : X.length ≤ k := by
        have := congrArg List.length hnil
        simp at this
        omega
      omega
    | cons c t =>
      have h1 : t.length ≤ n' := by simpa using hn
      cases hp : isPfx pat (c :: t) with
      | true =>
        exfalso
        obtain ⟨s₂, hs⟩ := isPfx_iff _ _ |>.mp hp
        rw [hs] at hpfx
        rcases Nat.lt_or_ge (k + pat.length) X.length with hlt | hge
        · rcases pfx_append_cases hpfx with hxp | ⟨z, hz, _⟩
          · have := pfx_length_le hxp
            rw [List.length_drop] at this
            omega
          · refine d1 ⟨X.take k, z, ?_⟩
            conv_lhs => rw [← List.take_append_drop k X]
            rw [hz, ← List.append_assoc]
        · have hxp : Pfx (X.drop k) pat :=
            pfx_of_pfx_append_le hpfx (by rw [List.length_drop]; omega)
          have hsfx : Sfx (X.drop k) X := ⟨X.take k, (List.take_append_drop k X).symm⟩
          have hne : X.drop k ≠ [] := by
            intro hnil
            have := congrArg List.length hnil
            simp at this
            omega
          exact ovl_sound d2 (X.drop k) hne hsfx hxp
      | false =>
        rw [replaceAll_neg rep hpat hp]
        obtain ⟨ck, hdk, _⟩ := drop_cons_self hk
        have hceq : ck = c := by
          rw [hdk] at hpfx
          obtain ⟨w₀, hw₀⟩ := hpfx
          rw [List.cons_append] at hw₀
          exact ((List.cons.injEq .. ▸ hw₀).1).symm
        rw [hceq] at hdk
        have hpfx' : Pfx (X.drop (k + 1)) t := by
          rw [hdk] at hpfx
          obtain ⟨w₀, hw₀⟩ := hpfx
          rw [List.cons_append] at hw₀
          exact ⟨w₀, (List.cons.injEq .. ▸ hw₀).2⟩
        rcases Nat.lt_or_ge (k + 1) X.length with hk1 | hk1
        · have hIH := ih t (k + 1) h1 (by omega) hk1 hpfx'
          rw [hdk]
          obtain ⟨w, hw⟩ := hIH
          exact ⟨w, by simp [hw]⟩
        · rw [hdk]
          have hnil : X.drop (k + 1) = [] := by
            apply List.drop_of_length_le
            omega
          rw [hnil]
          exact ⟨replaceAll pat rep t, rfl⟩

/-- Occurrence preservation for a plain replacement whose pattern cannot
intersect an occurrence of `X` in any way: no containment in either
direction and no junction overlap on either side. -/
theorem occ_preserve_replace {pat rep X : Text} (hpat : pat ≠ []) (hX : X ≠ [])
    (d1 : ¬ Occ pat X) (d2 : ovl X pat = false)
    (d3 : ¬ Occ X pat) (d4 : ovl pat X = false) :
    ∀ (n : Nat) (s : Text), s.length ≤ n → Occ X s →
      Occ X (replaceAll pat rep s) := by
  intro n
  induction n with
  | zero =>
    intro s hn hocc
    have hs : s = [] := by cases s <;> simp_all
    subst hs
    exact absurd (occ_nil_iff.mp hocc) hX
  | succ n' ih =>
    intro s hn hocc
    cases s with
    | nil => exact absurd (occ_nil_iff.mp hocc) hX
    | cons c t =>
      have h1 : t.length ≤ n' := by simpa using hn
      cases hp : isPfx pat (c :: t) with
      | true =>
        obtain ⟨s₂, hs⟩ := isPfx_iff _ _ |>.mp hp
        have hdrop : (c :: t).drop pat.length = s₂ := by rw [hs, List.drop_left]
        have hs2len : s₂.length ≤ n' := by
          have hlen := congrArg List.length hs
          have hple : 1 ≤ pat.length := by
            cases pat with
            | nil => simp at hpat
            | cons _ _ => simp
          rw [List.length_cons, List.length_append] at hlen
          omega
        rw [replaceAll_pos rep hpat hp, hdrop]
        rw [hs] at hocc
        rcases occ_append_cases hocc with h' | h' | ⟨u, v, hx, hu, hv, hsu, hpv⟩
        · exact absurd h' d3
        · exact occ_append_left _ (ih s₂ hs2len h')
        · exact absurd (⟨v, hx⟩ : Pfx u X) (ovl_sound d4 u hu hsu)
      | false =>
        rw [replaceAll_neg rep hpat hp]
        rcases occ_cons_iff.mp hocc with hpf | ho
        · cases X with
          | nil => exact absurd rfl hX
          | cons d X' =>
            obtain ⟨w₀, hw₀⟩ := hpf
            have hcd : c = d ∧ Pfx X' t := by
              rw [List.cons_append] at hw₀
              exact ⟨(List.cons.injEq .. ▸ hw₀).1, w₀, (List.cons.injEq .. ▸ hw₀).2⟩
            obtain ⟨rfl, hX't⟩ := hcd
            by_cases hX'e : X' = []
            · exact ⟨[], replaceAll pat rep t, by simp [hX'e]⟩
            · have h1X : 1 < (c :: X').length := by
                cases X' with
                | nil => exact absurd rfl hX'e
                | cons _ _ => simp
              have hdX : (c :: X').drop 1 = X' := by simp
              have hL := phiR rep hpat d1 d2 n' t 1 h1 Nat.one_pos h1X
                (by rw [hdX]; exact hX't)
              rw [hdX] at hL
              obtain ⟨w, hw⟩ := hL
              exact ⟨[], w, by simp [hw]⟩
        · exact occ_cons c (ih t h1 ho)

/-- Boolean suffix test. -/
def isSfx (a s : Text) : Bool := isPfx a.reverse s.reverse

theorem isSfx_iff (a s : Text) : isSfx a s = true ↔ Sfx a s := by
  unfold isSfx
  rw [isPfx_iff]
  constructor
  · rintro ⟨w, hw⟩
    refine ⟨w.reverse, ?_⟩
    rw [← List.reverse_reverse s, hw, List.reverse_append, List.reverse_reverse]
  · rintro ⟨t, rfl⟩
    exact ⟨t.reverse, by rw [List.reverse_append]⟩

/-- The break-offset condition of `occ_preserve_insert`, reduced to two
concretely checkable facts: no match of `P` ends strictly inside `X`
(that is, `P` does not occur in `X` shorn of its last character), and
every proper head of `X` that is a suffix of `P` is also a suffix of the
inserted text `G`. -/
theorem sc_of_checks {P X G : Text} (hP : P ≠ [])
    (h1 : isSub P (X.take (X.length - 1)) = false)
    (h2 : ∀ k, 0 < k → k < P.length → k < X.length →
      Sfx (X.take k) P → Sfx (X.take k) G) :
    ∀ k, 0 < k → k < X.length → CanEnd P X k → Sfx (X.take k) G := by
  intro k h0 hk hce
  rcases hce with ⟨j, hj, hPj⟩ | ⟨hkP, hsfx⟩
  · exfalso
    have hPlen : 1 ≤ P.length := by
      cases P with
      | nil => exact absurd rfl hP
      | cons _ _ => simp
    have hjlt : j < X.length := by omega
    obtain ⟨z, hz⟩ := hPj
    have hXj : X = X.take j ++ P ++ z := by
      conv_lhs => rw [← List.take_append_drop j X]
      rw [hz, ← List.append_assoc]
    have hA : (X.take j).length = j := by
      rw [List.length_take]
      omega
    have hABlen : (X.take j ++ P).length = j + P.length := by
      rw [List.length_append, hA]
    generalize hm : X.length - 1 = m at h1
    have hm1 : j + P.length ≤ m := by omega
    have htake : X.take m = (X.take j ++ P) ++ z.take (m - (j + P.length)) := by
      conv_lhs => rw [hXj]
      rw [List.append_assoc, ← List.append_assoc,
        List.take_append_eq_append_take,
        List.take_of_length_le (by rw [hABlen]; omega), hABlen]
    have hOcc : Occ P (X.take m) :=
      ⟨X.take j, z.take (m - (j + P.length)), by rw [htake]⟩
    rw [← isSub_iff] at hOcc
    rw [h1] at hOcc
    exact Bool.false_ne_true hOcc
  · exact h2 k h0 hkP hk hsfx

/-- The two halves of `scChk`, walked over the suffixes of `P`: each
nonempty suffix of `P` that is a proper prefix of `X` must be a suffix of
the inserted text `G`. -/
def scWalk (X G : Text) : Text → Bool
  | [] => true
  | c :: rest =>
    (!(isPfx (c :: rest) X) || decide (X.length ≤ (c :: rest).length) ||
      isSfx (c :: rest) G) && scWalk X G rest

/-- Executable form of the break-offset condition of
`occ_preserve_insert`. -/
def scChk (P X G : Text) : Bool :=
  !(isSub P (X.take (X.length - 1))) && scWalk X G P

theorem scWalk_sound {X G : Text} :
    ∀ {a : Text}, scWalk X G a = true →
      ∀ u, u ≠ [] → Sfx u a → isPfx u X = true → u.length < X.length →
        isSfx u G = true := by
  intro a
  induction a with
  | nil =>
    intro _ u hu hsfx
    exact absurd (sfx_nil_right hsfx) hu
  | cons c rest ih =>
    intro h u hu hsfx hpfx hlen
    rw [scWalk, Bool.and_eq_true] at h
    rcases sfx_cons_cases hsfx with rfl | hs'
    · rcases Bool.or_eq_true _ _ |>.mp h.1 with h' | h'
      · rcases Bool.or_eq_true _ _ |>.mp h' with h'' | h''
        · rw [hpfx] at h''
          simp at h''
        · have := of_decide_eq_true h''
          omega
      · exact h'
    · exact ih h.2 u hu hs' hpfx hlen

/-- Soundness of `scChk` for the hypothesis of `occ_preserve_insert`. -/
theorem sc_of_scChk {P X G : Text} (hP : P ≠ []) (hchk : scChk P X G = true) :
    ∀ k, 0 < k → k < X.length → CanEnd P X k → Sfx (X.take k) G := by
  rw [scChk, Bool.and_eq_true] at hchk
  have h1 : isSub P (X.take (X.length - 1)) = false := by
    have := hchk.1
    cases hsv : isSub P (X.take (X.length - 1))
    · rfl
    · rw [hsv] at this; simp at this
  refine sc_of_checks hP h1 (fun k h0 hkP hkX hsfx => ?_)
  have hne : X.take k ≠ [] := by
    intro hnil
    have hlen0 := congrArg List.length hnil
    rw [List.length_take] at hlen0
    simp only [List.length_nil] at hlen0
    omega
  have hpfx : isPfx (X.take k) X = true :=
    (isPfx_iff _ _).mpr ⟨X.drop k, (List.take_append_drop k X).symm⟩
  have hlen : (X.take k).length < X.length := by
    rw [List.length_take]
    omega
  exact (isSfx_iff _ _).mp (scWalk_sound hchk.2 (X.take k) hne hsfx hpfx hlen)

/-! ### Unfolding lemmas for the six guarded steps -/

theorem step1_pos {t : Text} (h : Occ original_block t) :
    step1 t = replaceAll original_block updated_block t := by
  unfold step1
  rw [if_pos ((isSub_iff _ _).mpr h)]

theorem step1_neg {t : Text} (h : ¬ Occ original_block t) : step1 t = t := by
  unfold step1
  rw [if_neg (fun hh => h ((isSub_iff _ _).mp hh))]

theorem step2_pos {t : Text} (h : Occ img_block t) :
    step2 t = replaceAll img_block img_updated t := by
  unfold step2
  rw [if_pos ((isSub_iff _ _).mpr h)]

theorem step2_neg {t : Text} (h : ¬ Occ img_block t) : step2 t = t := by
  unfold step2
  rw [if_neg (fun hh => h ((isSub_iff _ _).mp hh))]

theorem step3_skip {t : Text} (h : Occ carousel_css t) : step3 t = t := by
  unfold step3
  rw [if_pos ((isSub_iff _ _).mpr h)]

theorem step3_fire {t : Text} (h : ¬ Occ carousel_css t) :
    step3 t = replaceAll marker (marker ++ carousel_css) t := by
  unfold step3
  rw [if_neg (fun hh => h ((isSub_iff _ _).mp hh))]

theorem step4_skip {t : Text} (h : Occ ct_guard t) : step4 t = t := by
  unfold step4
  rw [if_pos ((isSub_iff _ _).mpr h)]

theorem step4_fire {t : Text} (h : ¬ Occ ct_guard t) :
    step4 t = replaceAll insert_point (insert_point ++ carousel_timers_decl) t := by
  unfold step4
  rw [if_neg (fun hh => h ((isSub_iff _ _).mp hh))]

theorem step5_skip {t : Text} (h : Occ cct_guard t) : step5 t = t := by
  unfold step5
  rw [if_pos ((isSub_iff _ _).mpr h)]

theorem step5_fire {t : Text} (h : ¬ Occ cct_guard t) :
    step5 t = replaceAll cache_marker (cache_marker ++ clear_timers_fn) t := by
  unfold step5
  rw [if_neg (fun hh => h ((isSub_iff _ _).mp hh))]

/-- The sixth guarded block of the source performs no substitution on
either branch. -/
theorem step6_eq (t : Text) : step6 t = t := by
  unfold step6
  split <;> rfl

/-- The four-way separation of two strings: neither occurs in the other
and no junction overlap exists in either direction.  When `sep a b` holds,
splicing one of the strings into a text can neither create nor destroy an
occurrence of the other. -/
def sep (a b : Text) : Bool :=
  !(isSub a b) && !(isSub b a) && !(ovl a b) && !(ovl b a)

theorem sep_sound {a b : Text} (h : sep a b = true) :
    ¬ Occ a b ∧ ¬ Occ b a ∧ ovl a b = false ∧ ovl b a = false := by
  rw [sep] at h
  simp only [Bool.and_eq_true, Bool.not_eq_true'] at h
  exact ⟨isSub_eq_false_iff.mp h.1.1.1, isSub_eq_false_iff.mp h.1.1.2,
    h.1.2, h.2⟩

/-- Entry point for self-removal: after the replacement, the pattern is gone. -/
theorem gone_of_sep {pat rep s : Text} (hpat : pat ≠ [])
    (hsep : sep rep pat = true) : ¬ Occ pat (replaceAll pat rep s) := by
  obtain ⟨h1, h2, h3, h4⟩ := sep_sound hsep
  exact occ_pat_gone hpat h2 h1 h3 h4 s.length s (le_refl _)

/-- Entry point for non-creation: an absent string stays absent. -/
theorem absent_of_sep {pat rep X s : Text} (hpat : pat ≠ []) (hX : X ≠ [])
    (hsep : sep rep X = true) (h : ¬ Occ X s) :
    ¬ Occ X (replaceAll pat rep s) := by
  obtain ⟨h1, h2, h3, h4⟩ := sep_sound hsep
  exact occ_preserve_absent hpat hX h2 h1 h3 h4 s.length s (le_refl _) h

/-- Entry point for preservation through an insert-after-anchor step. -/
theorem kept_of_scChk {P G X s : Text} (hP : P ≠ []) (hX : X ≠ [])
    (hchk : scChk P X G = true) (h : Occ X s) :
    Occ X (replaceAll P (P ++ G) s) :=
  occ_preserve_insert hP hX (sc_of_scChk hP hchk) s.length s (le_refl _) h

/-- Entry point for preservation through a plain replacement step. -/
theorem kept_of_sep {pat rep X s : Text} (hpat : pat ≠ []) (hX : X ≠ [])
    (hsep : sep pat X = true) (h : Occ X s) :
    Occ X (replaceAll pat rep s) := by
  obtain ⟨h1, h2, h3, h4⟩ := sep_sound hsep
  exact occ_preserve_replace hpat hX h1 h4 h2 h3 s.length s (le_refl _) h

/-- Non-creation across an explicit single splice `A ++ pat ++ B ↦
A ++ rep ++ B`. -/
theorem occ_explicit_absent {pat rep X A B : Text} (hsep : sep rep X = true)
    (h : ¬ Occ X (A ++ pat ++ B)) : ¬ Occ X (A ++ rep ++ B) := by
  obtain ⟨h1, h2, h3, h4⟩ := sep_sound hsep
  intro hocc
  rw [List.append_assoc] at hocc
  rcases occ_append_cases hocc with hA | hRB | ⟨u, v, hx, hu, hv, hsu, hpv⟩
  · exact h (occ_trans hA ⟨[], pat ++ B, by simp⟩)
  · rcases occ_append_cases hRB with hrep | hB | ⟨u, v, hx, hu, hv, hsu, hpv⟩
    · exact h2 hrep
    · exact h (occ_trans hB ⟨A ++ pat, [], by simp⟩)
    · exact ovl_sound h3 u hu hsu ⟨v, hx⟩
  · rcases pfx_append_cases hpv with hvrep | ⟨z, hvz, hzB⟩
    · exact ovl_sound h4 v hv ⟨u, hx⟩ hvrep
    · exact h1 ⟨u, z, by rw [hx, hvz, ← List.append_assoc]⟩

/-! ### Concrete side conditions of the six rules, checked by evaluation -/

theorem ne_O : original_block ≠ [] := by decide
theorem ne_I : img_block ≠ [] := by decide
theorem ne_M : marker ≠ [] := by decide
theorem ne_P : insert_point ≠ [] := by decide
theorem ne_Q : cache_marker ≠ [] := by decide
theorem ne_C : carousel_css ≠ [] := by decide
theorem ne_ct : ct_guard ≠ [] := by decide
theorem ne_cct : cct_guard ≠ [] := by decide
theorem ne_gpi : gpi_guard ≠ [] := by decide
theorem ne_MC : marker ++ carousel_css ≠ [] := by decide

theorem sep_U_O : sep updated_block original_block = true := by decide
theorem sep_J_I : sep img_updated img_block = true := by decide
theorem sep_J_O : sep img_updated original_block = true := by decide
theorem sep_MC_O : sep (marker ++ carousel_css) original_block = true := by decide
theorem sep_PG_O : sep (insert_point ++ carousel_timers_decl) original_block = true := by
  decide
theorem sep_QF_O : sep (cache_marker ++ clear_timers_fn) original_block = true := by
  decide
theorem sep_MC_I : sep (marker ++ carousel_css) img_block = true := by decide
theorem sep_PG_I : sep (insert_point ++ carousel_timers_decl) img_block = true := by
  decide
theorem sep_QF_I : sep (cache_marker ++ clear_timers_fn) img_block = true := by decide
theorem sep_PG_M : sep (insert_point ++ carousel_timers_decl) marker = true := by decide
theorem sep_QF_M : sep (cache_marker ++ clear_timers_fn) marker = true := by decide
theorem sep_QF_P : sep (cache_marker ++ clear_timers_fn) insert_point = true := by decide
theorem sep_U_I : sep updated_block img_block = true := by decide
theorem sep_U_M : sep updated_block marker = true := by decide
theorem sep_U_P : sep updated_block insert_point = true := by decide
theorem sep_U_Q : sep updated_block cache_marker = true := by decide
theorem sep_J_C : sep img_updated carousel_css = true := by decide
theorem sep_J_P : sep img_updated insert_point = true := by decide
theorem sep_J_Q : sep img_updated cache_marker = true := by decide
theorem sep_O_gpi : sep original_block gpi_guard = true := by decide
theorem sep_I_gpi : sep img_block gpi_guard = true := by decide
theorem sep_U_gpi : sep updated_block gpi_guard = true := by decide
theorem sep_J_gpi : sep img_updated gpi_guard = true := by decide
theorem sep_MC_gpi : sep (marker ++ carousel_css) gpi_guard = true := by decide
theorem sep_PG_gpi : sep (insert_point ++ carousel_timers_decl) gpi_guard = true := by
  decide
theorem sep_QF_gpi : sep (cache_marker ++ clear_timers_fn) gpi_guard = true := by decide

theorem sc_PG_C : scChk insert_point carousel_css carousel_timers_decl = true := by
  decide

set_option maxHeartbeats 2000000 in
theorem sc_QF_C : scChk cache_marker carousel_css clear_timers_fn = true := by decide

theorem sc_QF_ct : scChk cache_marker ct_guard clear_timers_fn = true := by decide

set_option maxHeartbeats 2000000 in
theorem sc_PG_MC :
    scChk insert_point (marker ++ carousel_css) carousel_timers_decl = true := by decide

set_option maxHeartbeats 2000000 in
theorem sc_QF_MC :
    scChk cache_marker (marker ++ carousel_css) clear_timers_fn = true := by decide

theorem sc_M_gpi : scChk marker gpi_guard carousel_css = true := by decide
theorem sc_PG_gpi : scChk insert_point gpi_guard carousel_timers_decl = true := by decide
theorem sc_QF_gpi : scChk cache_marker gpi_guard clear_timers_fn = true := by decide

theorem has_ct_PG : Occ ct_guard (insert_point ++ carousel_timers_decl) :=
  (isSub_iff _ _).mp (by decide)
theorem has_cct_QF : Occ cct_guard (cache_marker ++ clear_timers_fn) :=
  (isSub_iff _ _).mp (by decide)
theorem has_css_MC : Occ carousel_css (marker ++ carousel_css) :=
  (isSub_iff _ _).mp (by decide)

/-! ### Stability of the pipeline output under each guard -/

/-- After a full run, the first rule's before-block is gone. -/
theorem after_O (t : Text) : ¬ Occ original_block (applyRules t) := by
  have h1 : ¬ Occ original_block (step1 t) := by
    by_cases h : Occ original_block t
    · rw [step1_pos h]; exact gone_of_sep ne_O sep_U_O
    · rw [step1_neg h]; exact h
  have h2 : ¬ Occ original_block (step2 (step1 t)) := by
    by_cases h : Occ img_block (step1 t)
    · rw [step2_pos h]; exact absent_of_sep ne_I ne_O sep_J_O h1
    · rw [step2_neg h]; exact h1
  have h3 : ¬ Occ original_block (step3 (step2 (step1 t))) := by
    by_cases h : Occ carousel_css (step2 (step1 t))
    · rw [step3_skip h]; exact h2
    · rw [step3_fire h]; exact absent_of_sep ne_M ne_O sep_MC_O h2
  have h4 : ¬ Occ original_block (step4 (step3 (step2 (step1 t)))) := by
    by_cases h : Occ ct_guard (step3 (step2 (step1 t)))
    · rw [step4_skip h]; exact h3
    · rw [step4_fire h]; exact absent_of_sep ne_P ne_O sep_PG_O h3
  have h5 : ¬ Occ original_block
      (step5 (step4 (step3 (step2 (step1 t))))) := by
    by_cases h : Occ cct_guard (step4 (step3 (step2 (step1 t))))
    · rw [step5_skip h]; exact h4
    · rw [step5_fire h]; exact absent_of_sep ne_Q ne_O sep_QF_O h4
  unfold applyRules
  rw [step6_eq]
  exact h5

/-- After a full run, the second rule's before-block is gone. -/
theorem after_I (t : Text) : ¬ Occ img_block (applyRules t) := by
  have h2 : ¬ Occ img_block (step2 (step1 t)) := by
    by_cases h : Occ img_block (step1 t)
    · rw [step2_pos h]; exact gone_of_sep ne_I sep_J_I
    · rw [step2_neg h]; exact h
  have h3 : ¬ Occ img_block (step3 (step2 (step1 t))) := by
    by_cases h : Occ carousel_css (step2 (step1 t))
    · rw [step3_skip h]; exact h2
    · rw [step3_fire h]; exact absent_of_sep ne_M ne_I sep_MC_I h2
  have h4 : ¬ Occ img_block (step4 (step3 (step2 (step1 t)))) := by
    by_cases h : Occ ct_guard (step3 (step2 (step1 t)))
    · rw [step4_skip h]; exact h3
    · rw [step4_fire h]; exact absent_of_sep ne_P ne_I sep_PG_I h3
  have h5 : ¬ Occ img_block (step5 (step4 (step3 (step2 (step1 t))))) := by
    by_cases h : Occ cct_guard (step4 (step3 (step2 (step1 t))))
    · rw [step5_skip h]; exact h4
    · rw [step5_fire h]; exact absent_of_sep ne_Q ne_I sep_QF_I h4
  unfold applyRules
  rw [step6_eq]
  exact h5

/-- After a full run, either the carousel CSS is present or its anchor
is absent: the third rule cannot fire on a later run. -/
theorem after_css_or_M (t : Text) :
    Occ carousel_css (applyRules t) ∨ ¬ Occ marker (applyRules t) := by
  have hfin : ∀ u : Text, Occ carousel_css u →
      Occ carousel_css (step5 (step4 u)) := by
    intro u hu
    have h4 : Occ carousel_css (step4 u) := by
      by_cases h : Occ ct_guard u
      · rw [step4_skip h]; exact hu
      · rw [step4_fire h]; exact kept_of_scChk ne_P ne_C sc_PG_C hu
    by_cases h : Occ cct_guard (step4 u)
    · rw [step5_skip h]; exact h4
    · rw [step5_fire h]; exact kept_of_scChk ne_Q ne_C sc_QF_C h4
  unfold applyRules
  rw [step6_eq]
  by_cases hc : Occ carousel_css (step2 (step1 t))
  · exact Or.inl (hfin _ (by rw [step3_skip hc]; exact hc))
  · by_cases hm : Occ marker (step2 (step1 t))
    · refine Or.inl (hfin _ ?_)
      rw [step3_fire hc]
      exact occ_trans has_css_MC (occ_rep_after ne_M hm)
    · refine Or.inr ?_
      have h3 : ¬ Occ marker (step3 (step2 (step1 t))) := by
        rw [step3_fire hc, replaceAll_nomatch ne_M hm]
        exact hm
      have h4 : ¬ Occ marker (step4 (step3 (step2 (step1 t)))) := by
        by_cases h : Occ ct_guard (step3 (step2 (step1 t)))
        · rw [step4_skip h]; exact h3
        · rw [step4_fire h]; exact absent_of_sep ne_P ne_M sep_PG_M h3
      by_cases h : Occ cct_guard (step4 (step3 (step2 (step1 t))))
      · rw [step5_skip h]; exact h4
      · rw [step5_fire h]; exact absent_of_sep ne_Q ne_M sep_QF_M h4

/-- After a full run, either the `carouselTimers` declaration is present
or its anchor is absent: the fourth rule cannot fire on a later run. -/
theorem after_ct_or_P (t : Text) :
    Occ ct_guard (applyRules t) ∨ ¬ Occ insert_point (applyRules t) := by
  unfold applyRules
  rw [step6_eq]
  have hkeep : ∀ u : Text, Occ ct_guard u → Occ ct_guard (step5 u) := by
    intro u hu
    by_cases h : Occ cct_guard u
    · rw [step5_skip h]; exact hu
    · rw [step5_fire h]; exact kept_of_scChk ne_Q ne_ct sc_QF_ct hu
  by_cases hct : Occ ct_guard (step3 (step2 (step1 t)))
  · exact Or.inl (hkeep _ (by rw [step4_skip hct]; exact hct))
  · by_cases hp : Occ insert_point (step3 (step2 (step1 t)))
    · refine Or.inl (hkeep _ ?_)
      rw [step4_fire hct]
      exact occ_trans has_ct_PG (occ_rep_after ne_P hp)
    · refine Or.inr ?_
      have h4 : ¬ Occ insert_point (step4 (step3 (step2 (step1 t)))) := by
        rw [step4_fire hct, replaceAll_nomatch ne_P hp]
        exact hp
      by_cases h : Occ cct_guard (step4 (step3 (step2 (step1 t))))
      · rw [step5_skip h]; exact h4
      · rw [step5_fire h]; exact absent_of_sep ne_Q ne_P sep_QF_P h4

/-- After a full run, either `clearCarouselTimers` is present or its
anchor is absent: the fifth rule cannot fire on a later run. -/
theorem after_cct_or_Q (t : Text) :
    Occ cct_guard (applyRules t) ∨ ¬ Occ cache_marker (applyRules t) := by
  unfold applyRules
  rw [step6_eq]
  by_cases hcct : Occ cct_guard (step4 (step3 (step2 (step1 t))))
  · exact Or.inl (by rw [step5_skip hcct]; exact hcct)
  · by_cases hq : Occ cache_marker (step4 (step3 (step2 (step1 t))))
    · refine Or.inl ?_
      rw [step5_fire hcct]
      exact occ_trans has_cct_QF (occ_rep_after ne_Q hq)
    · refine Or.inr ?_
      rw [step5_fire hcct, replaceAll_nomatch ne_Q hq]
      exact hq

/-- Idempotence of the full pipeline. -/
theorem applyRules_idem (t : Text) : applyRules (applyRules t) = applyRules t := by
  have hO := after_O t
  have hI := after_I t
  have hM := after_css_or_M t
  have hP := after_ct_or_P t
  have hQ := after_cct_or_Q t
  set u := applyRules t with hu
  have h3 : step3 u = u := by
    rcases hM with hc | hm
    · exact step3_skip hc
    · by_cases hc : Occ carousel_css u
      · exact step3_skip hc
      · rw [step3_fire hc]
        exact replaceAll_nomatch ne_M hm
  have h4 : step4 u = u := by
    rcases hP with hc | hp
    · exact step4_skip hc
    · by_cases hc : Occ ct_guard u
      · exact step4_skip hc
      · rw [step4_fire hc]
        exact replaceAll_nomatch ne_P hp
  have h5 : step5 u = u := by
    rcases hQ with hc | hq
    · exact step5_skip hc
    · by_cases hc : Occ cct_guard u
      · exact step5_skip hc
      · rw [step5_fire hc]
        exact replaceAll_nomatch ne_Q hq
  show applyRules u = u
  unfold applyRules
  rw [step1_neg hO, step2_neg hI, h3, h4, h5, step6_eq]

/-- A bounded, executable uniqueness hypothesis implies the unbounded one
used by `replaceAll_unique`. -/
theorem unique_unbound {pat : Text} (hpat : pat ≠ []) {A B : Text}
    (h : ∀ i, i ≤ (A ++ pat ++ B).length →
      isPfx pat ((A ++ pat ++ B).drop i) = true → i = A.length) :
    ∀ i, Pfx pat ((A ++ pat ++ B).drop i) → i = A.length := by
  intro i hi
  rcases Nat.le_total i (A ++ pat ++ B).length with hle | hgt
  · exact h i hle ((isPfx_iff _ _).mpr hi)
  · exfalso
    rw [List.drop_of_length_le hgt] at hi
    exact hpat (pfx_nil_right hi)

/-- Dropping past the left part of an append. -/
theorem drop_append_ge {x y : Text} {n : Nat} (h : x.length ≤ n) :
    (x ++ y).drop n = y.drop (n - x.length) := by
  rw [List.drop_append_eq_append_drop, List.drop_of_length_le h, List.nil_append]

/-- Chunks joined by a separator: `joinWith sep [c0, c1, ..., cn]` is
`c0 ++ sep ++ c1 ++ sep ++ ... ++ cn`. -/
def joinWith (sep : Text) : List Text → Text
  | [] => []
  | [c] => c
  | c :: d :: cs => c ++ sep ++ joinWith sep (d :: cs)

/-- The positions, in `joinWith sep cs`, at which the separator copies
start. -/
def junctions (sep : Text) : List Text → List Nat
  | [] => []
  | [_] => []
  | c :: d :: cs =>
    c.length :: (junctions sep (d :: cs)).map (fun p => p + (c.length + sep.length))

/-- One left-to-right scan checking that the pattern matches only at the
listed positions. -/
def strayScan (pat : Text) (js : List Nat) : Nat → Text → Bool
  | _, [] => true
  | i, c :: t =>
    (!(isPfx pat (c :: t)) || decide (i ∈ js)) && strayScan pat js (i + 1) t

theorem strayScan_sound {pat : Text} (hpat : pat ≠ []) {js : List Nat} :
    ∀ (s : Text) (i : Nat), strayScan pat js i s = true →
      ∀ j, isPfx pat (s.drop j) = true → i + j ∈ js := by
  intro s
  induction s with
  | nil =>
    intro i _ j hj
    rw [List.drop_nil] at hj
    cases pat with
    | nil => exact absurd rfl hpat
    | cons a p => simp [isPfx] at hj
  | cons c t ih =>
    intro i h j hj
    rw [strayScan, Bool.and_eq_true] at h
    cases j with
    | zero =>
      rw [List.drop_zero] at hj
      rcases Bool.or_eq_true _ _ |>.mp h.1 with h' | h'
      · rw [hj] at h'
        simp at h'
      · simpa using of_decide_eq_true h'
    | succ j' =>
      have hmem := ih (i + 1) h.2 j' (by simpa using hj)
      rwa [show i + 1 + j' = i + (j' + 1) from by omega] at hmem

/-- When the first occurrence of the pattern is the designated one, the
replacement rewrites it and continues on the tail. -/
theorem replaceAll_first {pat : Text} (rep : Text) (hpat : pat ≠ []) :
    ∀ (A B : Text),
      (∀ i, i < A.length → ¬ Pfx pat ((A ++ pat ++ B).drop i)) →
      replaceAll pat rep (A ++ pat ++ B) = A ++ rep ++ replaceAll pat rep B := by
  intro A
  induction A with
  | nil =>
    intro B _
    simp only [List.nil_append]
    rw [replaceAll_head_match rep hpat ⟨B, rfl⟩, List.drop_left]
  | cons c A' ih =>
    intro B hfirst
    have hnp : isPfx pat ((c :: A') ++ pat ++ B) = false := by
      cases hpp : isPfx pat ((c :: A') ++ pat ++ B)
      · rfl
      · exact absurd ((isPfx_iff _ _).mp hpp)
          (by simpa using hfirst 0 (by simp))
    rw [show (c :: A') ++ pat ++ B = c :: (A' ++ pat ++ B) from by simp] at hnp ⊢
    rw [replaceAll_neg rep hpat hnp]
    rw [ih B (fun i hi => by
      have hfi := hfirst (i + 1) (by simp; omega)
      rw [show ((c :: A') ++ pat ++ B) = c :: (A' ++ pat ++ B) from by simp] at hfi
      simpa using hfi)]
    simp

/-- Python `replace` splices the replacement at every junction of a text
assembled from chunks joined by the pattern, provided the pattern matches
only at those junctions. -/
theorem replaceAll_joinWith {pat : Text} (rep : Text) (hpat : pat ≠ []) :
    ∀ cs : List Text, cs ≠ [] →
      (∀ i, Pfx pat ((joinWith pat cs).drop i) → i ∈ junctions pat cs) →
      replaceAll pat rep (joinWith pat cs) = joinWith rep cs := by
  intro cs
  induction cs with
  | nil =>
    intro h _
    exact absurd rfl h
  | cons c cs' ih =>
    intro _ hpos
    cases cs' with
    | nil =>
      have hno : ¬ Occ pat c := by
        rintro ⟨a, b, hc⟩
        have hp : Pfx pat ((joinWith pat [c]).drop a.length) := by
          show Pfx pat (c.drop a.length)
          rw [hc, List.append_assoc, List.drop_left]
          exact ⟨b, rfl⟩
        have hmem := hpos a.length hp
        simp [junctions] at hmem
      show replaceAll pat rep c = c
      exact replaceAll_nomatch hpat hno
    | cons d cs'' =>
      have hplen : 1 ≤ pat.length := by
        cases pat with
        | nil => exact absurd rfl hpat
        | cons _ _ => simp
      have hj : joinWith pat (c :: d :: cs'')
          = c ++ pat ++ joinWith pat (d :: cs'') := rfl
      have hjx : junctions pat (c :: d :: cs'')
          = c.length :: (junctions pat (d :: cs'')).map
              (fun p => p + (c.length + pat.length)) := rfl
      have hfirst : ∀ i, i < c.length →
          ¬ Pfx pat ((c ++ pat ++ joinWith pat (d :: cs'')).drop i) := by
        intro i hi hp
        have hmem := hpos i (by rw [hj]; exact hp)
        rw [hjx] at hmem
        rcases List.mem_cons.mp hmem with h' | h'
        · omega
        · obtain ⟨p, _, hpeq⟩ := List.mem_map.mp h'
          omega
      have htail : ∀ j, Pfx pat ((joinWith pat (d :: cs'')).drop j) →
          j ∈ junctions pat (d :: cs'') := by
        intro j hpj
        have hdrop : (c ++ pat ++ joinWith pat (d :: cs'')).drop
            (c.length + pat.length + j)
            = (joinWith pat (d :: cs'')).drop j := by
          rw [List.append_assoc, drop_append_ge (by omega)]
          rw [show c.length + pat.length + j - c.length = pat.length + j from by
            omega]
          rw [drop_append_ge (by omega)]
          rw [show pat.length + j - pat.length = j from by omega]
        have hmem := hpos (c.length + pat.length + j) (by
          rw [hj, hdrop]; exact hpj)
        rw [hjx] at hmem
        rcases List.mem_cons.mp hmem with h' | h'
        · omega
        · obtain ⟨p, hpmem, hpeq⟩ := List.mem_map.mp h'
          have hjp : j = p := by omega
          rwa [hjp]
      have hne2 : d :: cs'' ≠ [] := by simp
      rw [hj, replaceAll_first rep hpat c (joinWith pat (d :: cs'')) hfirst,
        ih hne2 htail]
      rfl

/-! ### The claims -/

/-- C1: Idempotence of the full patch pipeline: for every document text
`T`, applying the complete ordered sequence of guarded patch rules twice
in succession yields the same text as applying it once; in particular a
text that already reflects every rule's effect is left unchanged. -/
theorem c1_pipeline_idempotent (t : Text) :
    applyRules (applyRules t) = applyRules t :=
  applyRules_idem t

/-- C2: the source script reads `catalog.html` once at start, but its
storage trace contains no write at all — for every possible file content
the only storage action of a run is the initial read, so the patched text
is never written back.  This contradicts the claim (and the spec), which
say the full text is written back to the same location at process end. -/
theorem c2_no_write_back :
    scriptTrace [] = [IOEvent.read "catalog.html"] ∧
      ∀ input : Text, scriptTrace input = [IOEvent.read "catalog.html"] :=
  ⟨rfl, fun _ => rfl⟩

/-- C3, counterexample: the fourth rule fires on a text made of two copies
of its anchor (the guard passes), yet the result is not the text with the
content spliced after the first occurrence only — Python `str.replace`
splices after every occurrence. -/
theorem c3_counterexample :
    ¬ Occ ct_guard (insert_point ++ insert_point) ∧
      step4 (insert_point ++ insert_point) ≠
        insert_point ++ carousel_timers_decl ++ insert_point := by
  constructor
  · exact isSub_eq_false_iff.mp (by decide)
  · decide

/-- C3, amended: an anchor-based insertion rule splices its content
immediately after every non-overlapping occurrence of the anchor,
scanning left to right: on any text assembled as chunks joined by the
anchor (the anchor matching exactly at those junctions), the fired rule
returns the same chunks joined by anchor-plus-content, each chunk
byte-for-byte unchanged.  With two chunks (a single occurrence) this is
exactly the first-occurrence splice of the original claim. -/
theorem c3_amended :
    (∀ cs : List Text, cs ≠ [] →
      strayScan marker (junctions marker cs) 0 (joinWith marker cs) = true →
      ¬ Occ carousel_css (joinWith marker cs) →
      step3 (joinWith marker cs) = joinWith (marker ++ carousel_css) cs) ∧
    (∀ cs : List Text, cs ≠ [] →
      strayScan insert_point (junctions insert_point cs) 0
          (joinWith insert_point cs) = true →
      ¬ Occ ct_guard (joinWith insert_point cs) →
      step4 (joinWith insert_point cs)
        = joinWith (insert_point ++ carousel_timers_decl) cs) ∧
    (∀ cs : List Text, cs ≠ [] →
      strayScan cache_marker (junctions cache_marker cs) 0
          (joinWith cache_marker cs) = true →
      ¬ Occ cct_guard (joinWith cache_marker cs) →
      step5 (joinWith cache_marker cs)
        = joinWith (cache_marker ++ clear_timers_fn) cs) := by
  refine ⟨fun cs hne hscan hg => ?_, fun cs hne hscan hg => ?_,
    fun cs hne hscan hg => ?_⟩
  · rw [step3_fire hg]
    refine replaceAll_joinWith _ ne_M cs hne (fun i hp => ?_)
    simpa using strayScan_sound ne_M _ 0 hscan i ((isPfx_iff _ _).mpr hp)
  · rw [step4_fire hg]
    refine replaceAll_joinWith _ ne_P cs hne (fun i hp => ?_)
    simpa using strayScan_sound ne_P _ 0 hscan i ((isPfx_iff _ _).mpr hp)
  · rw [step5_fire hg]
    refine replaceAll_joinWith _ ne_Q cs hne (fun i hp => ?_)
    simpa using strayScan_sound ne_Q _ 0 hscan i ((isPfx_iff _ _).mpr hp)

set_option maxHeartbeats 4000000 in
/-- C3, witness for the amended claim: three chunks, so each anchor
occurs twice and the content is spliced after both occurrences. -/
theorem c3_amended_witness :
    step3 (joinWith marker ["x".toList, "y".toList, "z".toList])
      = joinWith (marker ++ carousel_css)
          ["x".toList, "y".toList, "z".toList] ∧
    step4 (joinWith insert_point ["x".toList, "y".toList, "z".toList])
      = joinWith (insert_point ++ carousel_timers_decl)
          ["x".toList, "y".toList, "z".toList] ∧
    step5 (joinWith cache_marker ["x".toList, "y".toList, "z".toList])
      = joinWith (cache_marker ++ clear_timers_fn)
          ["x".toList, "y".toList, "z".toList] :=
  ⟨c3_amended.1 _ (by simp) (by decide) (isSub_eq_false_iff.mp (by decide)),
    c3_amended.2.1 _ (by simp) (by decide) (isSub_eq_false_iff.mp (by decide)),
    c3_amended.2.2 _ (by simp) (by decide) (isSub_eq_false_iff.mp (by decide))⟩

/-- C4: no-op on absent targets: if the text contains none of the rules'
before-blocks or anchors, the full pipeline returns it unchanged. -/
theorem c4_noop_on_absent (t : Text)
    (h1 : ¬ Occ original_block t) (h2 : ¬ Occ img_block t)
    (h3 : ¬ Occ marker t) (h4 : ¬ Occ insert_point t)
    (h5 : ¬ Occ cache_marker t) :
    applyRules t = t := by
  unfold applyRules
  rw [step1_neg h1, step2_neg h2]
  have e3 : step3 t = t := by
    by_cases hc : Occ carousel_css t
    · exact step3_skip hc
    · rw [step3_fire hc]
      exact replaceAll_nomatch ne_M h3
  rw [e3]
  have e4 : step4 t = t := by
    by_cases hc : Occ ct_guard t
    · exact step4_skip hc
    · rw [step4_fire hc]
      exact replaceAll_nomatch ne_P h4
  rw [e4]
  have e5 : step5 t = t := by
    by_cases hc : Occ cct_guard t
    · exact step5_skip hc
    · rw [step5_fire hc]
      exact replaceAll_nomatch ne_Q h5
  rw [e5, step6_eq]

/-- C4, witness: a small text containing no target. -/
theorem c4_witness : applyRules "hello".toList = "hello".toList :=
  c4_noop_on_absent _
    (isSub_eq_false_iff.mp (by decide)) (isSub_eq_false_iff.mp (by decide))
    (isSub_eq_false_iff.mp (by decide)) (isSub_eq_false_iff.mp (by decide))
    (isSub_eq_false_iff.mp (by decide))

/-- C7: rule match failure is silent and non-fatal: a rule whose
before-block or anchor is absent leaves the text unchanged for that rule,
and the pipeline is the total composition of all six steps on every input
text — there is no failure mode. -/
theorem c7_silent_noop (t : Text) :
    (¬ Occ original_block t → step1 t = t) ∧
    (¬ Occ img_block t → step2 t = t) ∧
    (¬ Occ marker t → step3 t = t) ∧
    (¬ Occ insert_point t → step4 t = t) ∧
    (¬ Occ cache_marker t → step5 t = t) ∧
    step6 t = t ∧
    applyRules t = step6 (step5 (step4 (step3 (step2 (step1 t))))) := by
  refine ⟨step1_neg, step2_neg, ?_, ?_, ?_, step6_eq t, rfl⟩
  · intro h3
    by_cases hc : Occ carousel_css t
    · exact step3_skip hc
    · rw [step3_fire hc]
      exact replaceAll_nomatch ne_M h3
  · intro h4
    by_cases hc : Occ ct_guard t
    · exact step4_skip hc
    · rw [step4_fire hc]
      exact replaceAll_nomatch ne_P h4
  · intro h5
    by_cases hc : Occ cct_guard t
    · exact step5_skip hc
    · rw [step5_fire hc]
      exact replaceAll_nomatch ne_Q h5

/-- C7, witness: every rule is a silent no-op on a text with no targets. -/
theorem c7_witness :
    step1 "hello".toList = "hello".toList ∧
    step2 "hello".toList = "hello".toList ∧
    step3 "hello".toList = "hello".toList ∧
    step4 "hello".toList = "hello".toList ∧
    step5 "hello".toList = "hello".toList :=
  ⟨(c7_silent_noop _).1 (isSub_eq_false_iff.mp (by decide)),
    (c7_silent_noop _).2.1 (isSub_eq_false_iff.mp (by decide)),
    (c7_silent_noop _).2.2.1 (isSub_eq_false_iff.mp (by decide)),
    (c7_silent_noop _).2.2.2.1 (isSub_eq_false_iff.mp (by decide)),
    (c7_silent_noop _).2.2.2.2.1 (isSub_eq_false_iff.mp (by decide))⟩

/-- C8, counterexample: on the empty text the sixth rule's guard reports
the effect absent, its body executes (binding the two fragment strings and
performing no substitution), and the detector is still false on the result
— so the claim that after every fired action the detector evaluates true
is refuted at this input. -/
theorem c8_counterexample :
    ¬ Occ gpi_guard ([] : Text) ∧ step6 ([] : Text) = [] ∧
      ¬ Occ gpi_guard (step6 ([] : Text)) := by
  refine ⟨?_, step6_eq [], ?_⟩
  · exact isSub_eq_false_iff.mp (by decide)
  · rw [step6_eq]
    exact isSub_eq_false_iff.mp (by decide)

/-- C8, amended: detector–action agreement holds for the five substituting
rules whenever the rule's before-block or anchor is present in the text on
which the action runs: the rule's detector string then occurs in the
action's output.  The sixth rule's action performs no substitution at all,
so its detector stays false and its guard fires again on every later run
(harmlessly); likewise an insertion action run with its anchor absent
leaves its detector false. -/
theorem c8_amended (t : Text) :
    (Occ original_block t →
      Occ updated_block (replaceAll original_block updated_block t)) ∧
    (Occ img_block t →
      Occ img_updated (replaceAll img_block img_updated t)) ∧
    (Occ marker t →
      Occ carousel_css (replaceAll marker (marker ++ carousel_css) t)) ∧
    (Occ insert_point t →
      Occ ct_guard
        (replaceAll insert_point (insert_point ++ carousel_timers_decl) t)) ∧
    (Occ cache_marker t →
      Occ cct_guard
        (replaceAll cache_marker (cache_marker ++ clear_timers_fn) t)) ∧
    step6 t = t := by
  refine ⟨fun h => occ_rep_after ne_O h, fun h => occ_rep_after ne_I h,
    fun h => occ_trans has_css_MC (occ_rep_after ne_M h),
    fun h => occ_trans has_ct_PG (occ_rep_after ne_P h),
    fun h => occ_trans has_cct_QF (occ_rep_after ne_Q h),
    step6_eq t⟩

/-- C8, witness for the amended claim: each substituting rule fired on its
own target text. -/
theorem c8_amended_witness :
    Occ updated_block
      (replaceAll original_block updated_block original_block) ∧
    Occ img_updated (replaceAll img_block img_updated img_block) ∧
    Occ carousel_css (replaceAll marker (marker ++ carousel_css) marker) ∧
    Occ ct_guard
      (replaceAll insert_point (insert_point ++ carousel_timers_decl)
        insert_point) ∧
    Occ cct_guard
      (replaceAll cache_marker (cache_marker ++ clear_timers_fn)
        cache_marker) :=
  ⟨(c8_amended original_block).1 (occ_self _),
    (c8_amended img_block).2.1 (occ_self _),
    (c8_amended marker).2.2.1 (occ_self _),
    (c8_amended insert_point).2.2.2.1 (occ_self _),
    (c8_amended cache_marker).2.2.2.2.1 (occ_self _)⟩

/-- C10: length monotonicity: every rule either leaves the text unchanged
or replaces a block by a strictly longer one or inserts content, so the
final text is never shorter than the input. -/
theorem c10_length_monotone (t : Text) :
    t.length ≤ (applyRules t).length := by
  have l1 : t.length ≤ (step1 t).length := by
    by_cases h : Occ original_block t
    · rw [step1_pos h]
      exact replaceAll_length_ge ne_O (by decide) t.length t (le_refl _)
    · rw [step1_neg h]
  have l2 : (step1 t).length ≤ (step2 (step1 t)).length := by
    by_cases h : Occ img_block (step1 t)
    · rw [step2_pos h]
      exact replaceAll_length_ge ne_I (by decide) _ _ (le_refl _)
    · rw [step2_neg h]
  have l3 : (step2 (step1 t)).length ≤ (step3 (step2 (step1 t))).length := by
    by_cases h : Occ carousel_css (step2 (step1 t))
    · rw [step3_skip h]
    · rw [step3_fire h]
      exact replaceAll_length_ge ne_M
        (by rw [List.length_append]; omega) _ _ (le_refl _)
  have l4 : (step3 (step2 (step1 t))).length ≤
      (step4 (step3 (step2 (step1 t)))).length := by
    by_cases h : Occ ct_guard (step3 (step2 (step1 t)))
    · rw [step4_skip h]
    · rw [step4_fire h]
      exact replaceAll_length_ge ne_P
        (by rw [List.length_append]; omega) _ _ (le_refl _)
  have l5 : (step4 (step3 (step2 (step1 t)))).length ≤
      (step5 (step4 (step3 (step2 (step1 t))))).length := by
    by_cases h : Occ cct_guard (step4 (step3 (step2 (step1 t))))
    · rw [step5_skip h]
    · rw [step5_fire h]
      exact replaceAll_length_ge ne_Q
        (by rw [List.length_append]; omega) _ _ (le_refl _)
  unfold applyRules
  rw [step6_eq]
  omega

/-- C5, counterexample: the claim fails for the second replacement rule.
The text below holds exactly one occurrence of the img before-block and
none of the other rules' targets, yet the pipeline does not merely
replace the before-block's span: firing the rule creates the third
rule's anchor (the updated img block followed by the newline), and the
carousel CSS is spliced outside the replaced span. -/
theorem c5_counterexample :
    (∀ i, i ≤ ("x".toList ++ img_block ++ ('\n' :: "y".toList)).length →
      isPfx img_block
        (("x".toList ++ img_block ++ ('\n' :: "y".toList)).drop i) = true →
      i = 1) ∧
    ¬ Occ original_block ("x".toList ++ img_block ++ ('\n' :: "y".toList)) ∧
    ¬ Occ marker ("x".toList ++ img_block ++ ('\n' :: "y".toList)) ∧
    ¬ Occ insert_point ("x".toList ++ img_block ++ ('\n' :: "y".toList)) ∧
    ¬ Occ cache_marker ("x".toList ++ img_block ++ ('\n' :: "y".toList)) ∧
    applyRules ("x".toList ++ img_block ++ ('\n' :: "y".toList))
      ≠ "x".toList ++ img_updated ++ ('\n' :: "y".toList) := by
  refine ⟨by decide, ?_, ?_, ?_, ?_, by decide⟩
  · exact isSub_eq_false_iff.mp (by decide)
  · exact isSub_eq_false_iff.mp (by decide)
  · exact isSub_eq_false_iff.mp (by decide)
  · exact isSub_eq_false_iff.mp (by decide)

/-- C5, amended: targeted locality holds for the first replacement rule
exactly as claimed: with the before-block present exactly once and no
other rule's target present, the pipeline output is the text with only
that span replaced.  For the second replacement rule it holds with the
additional proviso that the replacement does not create the third rule's
anchor (the updated img block immediately followed by a newline);
otherwise the pipeline also splices the carousel CSS after the newly
created anchor, outside the replaced span. -/
theorem c5_replacement_locality :
    (∀ A B : Text,
      (∀ i, i ≤ (A ++ original_block ++ B).length →
        isPfx original_block ((A ++ original_block ++ B).drop i) = true →
          i = A.length) →
      ¬ Occ img_block (A ++ original_block ++ B) →
      ¬ Occ marker (A ++ original_block ++ B) →
      ¬ Occ insert_point (A ++ original_block ++ B) →
      ¬ Occ cache_marker (A ++ original_block ++ B) →
      applyRules (A ++ original_block ++ B) = A ++ updated_block ++ B) ∧
    (∀ A B : Text,
      (∀ i, i ≤ (A ++ img_block ++ B).length →
        isPfx img_block ((A ++ img_block ++ B).drop i) = true →
          i = A.length) →
      ¬ Occ original_block (A ++ img_block ++ B) →
      ¬ Occ marker (A ++ img_block ++ B) →
      ¬ Occ insert_point (A ++ img_block ++ B) →
      ¬ Occ cache_marker (A ++ img_block ++ B) →
      ¬ Occ marker (A ++ img_updated ++ B) →
      applyRules (A ++ img_block ++ B) = A ++ img_updated ++ B) := by
  constructor
  · intro A B huniq h2 h3 h4 h5
    have hO : Occ original_block (A ++ original_block ++ B) := ⟨A, B, rfl⟩
    have e1 : step1 (A ++ original_block ++ B) = A ++ updated_block ++ B := by
      rw [step1_pos hO]
      exact replaceAll_unique ne_O A B (unique_unbound ne_O huniq)
    have h2' : ¬ Occ img_block (A ++ updated_block ++ B) :=
      occ_explicit_absent sep_U_I h2
    have h3' : ¬ Occ marker (A ++ updated_block ++ B) :=
      occ_explicit_absent sep_U_M h3
    have h4' : ¬ Occ insert_point (A ++ updated_block ++ B) :=
      occ_explicit_absent sep_U_P h4
    have h5' : ¬ Occ cache_marker (A ++ updated_block ++ B) :=
      occ_explicit_absent sep_U_Q h5
    unfold applyRules
    rw [e1, step2_neg h2']
    have e3 : step3 (A ++ updated_block ++ B) = A ++ updated_block ++ B := by
      by_cases hc : Occ carousel_css (A ++ updated_block ++ B)
      · exact step3_skip hc
      · rw [step3_fire hc]
        exact replaceAll_nomatch ne_M h3'
    rw [e3]
    have e4 : step4 (A ++ updated_block ++ B) = A ++ updated_block ++ B := by
      by_cases hc : Occ ct_guard (A ++ updated_block ++ B)
      · exact step4_skip hc
      · rw [step4_fire hc]
        exact replaceAll_nomatch ne_P h4'
    rw [e4]
    have e5 : step5 (A ++ updated_block ++ B) = A ++ updated_block ++ B := by
      by_cases hc : Occ cct_guard (A ++ updated_block ++ B)
      · exact step5_skip hc
      · rw [step5_fire hc]
        exact replaceAll_nomatch ne_Q h5'
    rw [e5, step6_eq]
  · intro A B huniq h1 h3 h4 h5 hM
    have hI : Occ img_block (A ++ img_block ++ B) := ⟨A, B, rfl⟩
    have e1 : step1 (A ++ img_block ++ B) = A ++ img_block ++ B :=
      step1_neg h1
    have e2 : step2 (A ++ img_block ++ B) = A ++ img_updated ++ B := by
      rw [step2_pos hI]
      exact replaceAll_unique ne_I A B (unique_unbound ne_I huniq)
    have h4' : ¬ Occ insert_point (A ++ img_updated ++ B) :=
      occ_explicit_absent sep_J_P h4
    have h5' : ¬ Occ cache_marker (A ++ img_updated ++ B) :=
      occ_explicit_absent sep_J_Q h5
    unfold applyRules
    rw [e1, e2]
    have e3 : step3 (A ++ img_updated ++ B) = A ++ img_updated ++ B := by
      by_cases hc : Occ carousel_css (A ++ img_updated ++ B)
      · exact step3_skip hc
      · rw [step3_fire hc]
        exact replaceAll_nomatch ne_M hM
    rw [e3]
    have e4 : step4 (A ++ img_updated ++ B) = A ++ img_updated ++ B := by
      by_cases hc : Occ ct_guard (A ++ img_updated ++ B)
      · exact step4_skip hc
      · rw [step4_fire hc]
        exact replaceAll_nomatch ne_P h4'
    rw [e4]
    have e5 : step5 (A ++ img_updated ++ B) = A ++ img_updated ++ B := by
      by_cases hc : Occ cct_guard (A ++ img_updated ++ B)
      · exact step5_skip hc
      · rw [step5_fire hc]
        exact replaceAll_nomatch ne_Q h5'
    rw [e5, step6_eq]

set_option maxHeartbeats 4000000 in
/-- C5, witness: concrete texts, one per replacement rule; for the img
rule the before-block is followed by a non-newline character, so the
third rule's anchor is not created. -/
theorem c5_witness :
    applyRules ("x".toList ++ original_block ++ "y".toList)
      = "x".toList ++ updated_block ++ "y".toList ∧
    applyRules ("x".toList ++ img_block ++ "y".toList)
      = "x".toList ++ img_updated ++ "y".toList :=
  ⟨c5_replacement_locality.1 _ _ (by decide)
      (isSub_eq_false_iff.mp (by decide)) (isSub_eq_false_iff.mp (by decide))
      (isSub_eq_false_iff.mp (by decide)) (isSub_eq_false_iff.mp (by decide)),
    c5_replacement_locality.2 _ _ (by decide)
      (isSub_eq_false_iff.mp (by decide)) (isSub_eq_false_iff.mp (by decide))
      (isSub_eq_false_iff.mp (by decide)) (isSub_eq_false_iff.mp (by decide))
      (isSub_eq_false_iff.mp (by decide))⟩

/-- C6: ordering dependency in one pass: on a text containing the img
before-block (once, followed by a newline, so that firing the second rule
introduces the third rule's anchor `marker = img_updated + "\n"`) and not
the carousel CSS, one run of the full pipeline produces a text containing
both effects: the updated img block, with the carousel CSS spliced right
after it. -/
theorem c6_ordering_dependency (A B : Text)
    (hO : ¬ Occ original_block (A ++ img_block ++ ('\n' :: B)))
    (huniq : ∀ i, i ≤ (A ++ img_block ++ ('\n' :: B)).length →
      isPfx img_block ((A ++ img_block ++ ('\n' :: B)).drop i) = true →
        i = A.length)
    (hC : ¬ Occ carousel_css (A ++ img_block ++ ('\n' :: B))) :
    Occ (marker ++ carousel_css)
        (applyRules (A ++ img_block ++ ('\n' :: B))) ∧
      Occ img_updated (applyRules (A ++ img_block ++ ('\n' :: B))) := by
  have hI : Occ img_block (A ++ img_block ++ ('\n' :: B)) := ⟨A, '\n' :: B, rfl⟩
  have e1 : step1 (A ++ img_block ++ ('\n' :: B))
      = A ++ img_block ++ ('\n' :: B) := step1_neg hO
  have e2 : step2 (A ++ img_block ++ ('\n' :: B))
      = A ++ img_updated ++ ('\n' :: B) := by
    rw [step2_pos hI]
    exact replaceAll_unique ne_I A ('\n' :: B) (unique_unbound ne_I huniq)
  have hC' : ¬ Occ carousel_css (A ++ img_updated ++ ('\n' :: B)) :=
    occ_explicit_absent sep_J_C hC
  have hM : Occ marker (A ++ img_updated ++ ('\n' :: B)) :=
    ⟨A, B, by simp [marker]⟩
  have hMC : Occ (marker ++ carousel_css)
      (step3 (A ++ img_updated ++ ('\n' :: B))) := by
    rw [step3_fire hC']
    exact occ_rep_after ne_M hM
  have hMC4 : Occ (marker ++ carousel_css)
      (step4 (step3 (A ++ img_updated ++ ('\n' :: B)))) := by
    by_cases hc : Occ ct_guard (step3 (A ++ img_updated ++ ('\n' :: B)))
    · rw [step4_skip hc]; exact hMC
    · rw [step4_fire hc]
      exact kept_of_scChk ne_P ne_MC sc_PG_MC hMC
  have hMC5 : Occ (marker ++ carousel_css)
      (step5 (step4 (step3 (A ++ img_updated ++ ('\n' :: B))))) := by
    by_cases hc : Occ cct_guard
        (step4 (step3 (A ++ img_updated ++ ('\n' :: B))))
    · rw [step5_skip hc]; exact hMC4
    · rw [step5_fire hc]
      exact kept_of_scChk ne_Q ne_MC sc_QF_MC hMC4
  have hfin : Occ (marker ++ carousel_css)
      (applyRules (A ++ img_block ++ ('\n' :: B))) := by
    unfold applyRules
    rw [e1, e2, step6_eq]
    exact hMC5
  refine ⟨hfin, ?_⟩
  have hJin : Occ img_updated (marker ++ carousel_css) :=
    pfx_occ ⟨"\n".toList ++ carousel_css, by simp [marker]⟩
  exact occ_trans hJin hfin

set_option maxHeartbeats 4000000 in
/-- C6, witness: a concrete text with the img before-block followed by a
newline and no carousel CSS. -/
theorem c6_witness :
    Occ (marker ++ carousel_css)
        (applyRules ("x".toList ++ img_block ++ ('\n' :: "y".toList))) ∧
      Occ img_updated
        (applyRules ("x".toList ++ img_block ++ ('\n' :: "y".toList))) :=
  c6_ordering_dependency _ _
    (isSub_eq_false_iff.mp (by decide)) (by decide)
    (isSub_eq_false_iff.mp (by decide))

/-- C9: the sixth guarded step never modifies the text — its body only
constructs the `productPrimaryImage` and `getProductImages` fragment
strings and performs no substitution — and the whole pipeline neither
creates nor destroys an occurrence of `function getProductImages`: the
output contains that fragment exactly when the input does.  In particular
an unpatched document never receives the `getProductImages` helper. -/
theorem c9_sixth_step_inert (t : Text) :
    step6 t = t ∧
      (Occ gpi_guard (applyRules t) ↔ Occ gpi_guard t) := by
  refine ⟨step6_eq t, ?_, ?_⟩
  · -- no step can create the fragment
    intro hocc
    by_contra habs
    have a1 : ¬ Occ gpi_guard (step1 t) := by
      by_cases h : Occ original_block t
      · rw [step1_pos h]; exact absent_of_sep ne_O ne_gpi sep_U_gpi habs
      · rw [step1_neg h]; exact habs
    have a2 : ¬ Occ gpi_guard (step2 (step1 t)) := by
      by_cases h : Occ img_block (step1 t)
      · rw [step2_pos h]; exact absent_of_sep ne_I ne_gpi sep_J_gpi a1
      · rw [step2_neg h]; exact a1
    have a3 : ¬ Occ gpi_guard (step3 (step2 (step1 t))) := by
      by_cases h : Occ carousel_css (step2 (step1 t))
      · rw [step3_skip h]; exact a2
      · rw [step3_fire h]; exact absent_of_sep ne_M ne_gpi sep_MC_gpi a2
    have a4 : ¬ Occ gpi_guard (step4 (step3 (step2 (step1 t)))) := by
      by_cases h : Occ ct_guard (step3 (step2 (step1 t)))
      · rw [step4_skip h]; exact a3
      · rw [step4_fire h]; exact absent_of_sep ne_P ne_gpi sep_PG_gpi a3
    have a5 : ¬ Occ gpi_guard
        (step5 (step4 (step3 (step2 (step1 t))))) := by
      by_cases h : Occ cct_guard (step4 (step3 (step2 (step1 t))))
      · rw [step5_skip h]; exact a4
      · rw [step5_fire h]; exact absent_of_sep ne_Q ne_gpi sep_QF_gpi a4
    apply a5
    have : applyRules t = step5 (step4 (step3 (step2 (step1 t)))) := by
      unfold applyRules
      rw [step6_eq]
    rwa [this] at hocc
  · -- no step can destroy the fragment
    intro hocc
    have k1 : Occ gpi_guard (step1 t) := by
      by_cases h : Occ original_block t
      · rw [step1_pos h]; exact kept_of_sep ne_O ne_gpi sep_O_gpi hocc
      · rw [step1_neg h]; exact hocc
    have k2 : Occ gpi_guard (step2 (step1 t)) := by
      by_cases h : Occ img_block (step1 t)
      · rw [step2_pos h]; exact kept_of_sep ne_I ne_gpi sep_I_gpi k1
      · rw [step2_neg h]; exact k1
    have k3 : Occ gpi_guard (step3 (step2 (step1 t))) := by
      by_cases h : Occ carousel_css (step2 (step1 t))
      · rw [step3_skip h]; exact k2
      · rw [step3_fire h]; exact kept_of_scChk ne_M ne_gpi sc_M_gpi k2
    have k4 : Occ gpi_guard (step4 (step3 (step2 (step1 t)))) := by
      by_cases h : Occ ct_guard (step3 (step2 (step1 t)))
      · rw [step4_skip h]; exact k3
      · rw [step4_fire h]; exact kept_of_scChk ne_P ne_gpi sc_PG_gpi k3
    have k5 : Occ gpi_guard
        (step5 (step4 (step3 (step2 (step1 t))))) := by
      by_cases h : Occ cct_guard (step4 (step3 (step2 (step1 t))))
      · rw [step5_skip h]; exact k4
      · rw [step5_fire h]; exact kept_of_scChk ne_Q ne_gpi sc_QF_gpi k4
    unfold applyRules
    rw [step6_eq]
    exact k5

/-- C1, witness: idempotence at a concrete text. -/
theorem c1_witness :
    applyRules (applyRules ("x".toList ++ original_block ++ "y".toList)) =
      applyRules ("x".toList ++ original_block ++ "y".toList) :=
  c1_pipeline_idempotent ("x".toList ++ original_block ++ "y".toList)

/-- C9, witness: the sixth step is inert at a concrete text. -/
theorem c9_witness :
    step6 "hello".toList = "hello".toList ∧
      (Occ gpi_guard (applyRules "hello".toList) ↔
        Occ gpi_guard "hello".toList) :=
  c9_sixth_step_inert "hello".toList

/-- C10, witness: the pipeline never shortens a concrete text. -/
theorem c10_witness :
    ("hello".toList : Text).length ≤ (applyRules "hello".toList).length :=
  c10_length_monotone "hello".toList

end PsiWebstore
